import Mathlib

/-!
Verification of the signed arbitrary-precision integer layer
(`vendor/num-bigint/src/bigint.rs`).

The layer composes a tri-state sign with an unsigned magnitude.  The
magnitude engine (`BigUint`) is the out-of-scope collaborator of the spec;
its values are modelled as `ℕ` and its operations as the corresponding
exact natural-number operations.
-/

/-- The tri-state sign of a `BigInt` (`enum Sign { Minus, NoSign, Plus }`).
The derived Rust `Ord` orders the variants in declaration order:
`Minus < NoSign < Plus`. -/
inductive Sign where
  | Minus : Sign
  | NoSign : Sign
  | Plus : Sign
deriving DecidableEq, Repr

/-- Negation of a sign (`impl Neg for Sign`). -/
def Sign.neg : Sign → Sign
  | .Minus => .Plus
  | .NoSign => .NoSign
  | .Plus => .Minus

/-- Product of signs (`impl Mul<Sign> for Sign`). -/
def Sign.mul : Sign → Sign → Sign
  | .NoSign, _ => .NoSign
  | _, .NoSign => .NoSign
  | .Plus, .Plus => .Plus
  | .Minus, .Minus => .Plus
  | .Plus, .Minus => .Minus
  | .Minus, .Plus => .Minus

/-- Comparison of signs, following the derived `Ord` for `Sign`
(declaration order `Minus < NoSign < Plus`). -/
def Sign.cmp : Sign → Sign → Ordering
  | .Minus, .Minus => .eq
  | .Minus, _ => .lt
  | .NoSign, .Minus => .gt
  | .NoSign, .NoSign => .eq
  | .NoSign, .Plus => .lt
  | .Plus, .Plus => .eq
  | .Plus, _ => .gt

/-- Integer factor carried by a sign (proof infrastructure). -/
def Sign.val : Sign → ℤ
  | .Minus => -1
  | .NoSign => 0
  | .Plus => 1

/-- A big signed integer: `struct BigInt { sign: Sign, data: BigUint }`.
The magnitude `data` is modelled as a natural number. -/
structure BigInt where
  sign : Sign
  data : ℕ
deriving DecidableEq, Repr

namespace BigInt

/-- The mathematical integer denoted by a `BigInt`. -/
def toInt (x : BigInt) : ℤ :=
  match x.sign with
  | .Minus => -(x.data : ℤ)
  | .NoSign => 0
  | .Plus => (x.data : ℤ)

/-- The canonical-zero invariant: the sign is `NoSign` iff the magnitude
is zero (`debug_assert!((self.sign != NoSign) ^ self.data.is_zero())`). -/
def Canon (x : BigInt) : Prop :=
  x.sign = Sign.NoSign ↔ x.data = 0

instance (x : BigInt) : Decidable (Canon x) := by
  unfold Canon; infer_instance

/-- Canonical zero (`impl Zero for BigInt`). -/
def zero : BigInt := ⟨Sign.NoSign, 0⟩

/-- Canonical one (`impl One for BigInt`). -/
def one : BigInt := ⟨Sign.Plus, 1⟩

/-- Construction from a sign and a magnitude (`BigInt::from_biguint`):
a requested `NoSign` forces the magnitude to zero, and a zero magnitude
forces the sign to `NoSign`. -/
def from_biguint (sign : Sign) (data : ℕ) : BigInt :=
  if sign = Sign.NoSign then ⟨Sign.NoSign, 0⟩
  else if data = 0 then ⟨Sign.NoSign, data⟩
  else ⟨sign, data⟩

/-- Modelled from the spec: `BigUint::new` of the magnitude engine builds an
unsigned value from base-`2^32` digits ordered least significant first. -/
def digitsToNat (digits : List ℕ) : ℕ :=
  digits.foldr (fun d acc => d + 2 ^ 32 * acc) 0

/-- Construction from a sign and little-endian base-`2^32` digits
(`BigInt::new`). -/
def new_ (sign : Sign) (digits : List ℕ) : BigInt :=
  from_biguint sign (digitsToNat digits)

/-- Construction from a sign and a digit slice (`BigInt::from_slice`). -/
def from_slice (sign : Sign) (slice : List ℕ) : BigInt :=
  from_biguint sign (digitsToNat slice)

/-- Conversion from a magnitude (`impl From<BigUint> for BigInt`):
zero maps to canonical zero, anything else gets sign `Plus`. -/
def ofNat (n : ℕ) : BigInt :=
  if n = 0 then zero else ⟨Sign.Plus, n⟩

/-- Radix parsing (`impl Num for BigInt`, `from_str_radix`): the sign is
read off a leading minus and the externally parsed magnitude is passed to
`from_biguint`.  The magnitude-engine parser is out of scope, so it enters
as the already-parsed value `mag`. -/
def from_str_radix_model (negative : Bool) (mag : ℕ) : BigInt :=
  from_biguint (if negative then Sign.Minus else Sign.Plus) mag

/-- Negation (`impl Neg for BigInt`): flip the sign, keep the magnitude. -/
def neg (x : BigInt) : BigInt := ⟨x.sign.neg, x.data⟩

/-- Comparison (`impl Ord for BigInt`): compare signs first; on equal signs
positive values compare by magnitude and negative values by the reversed
magnitude comparison. -/
def cmp (a b : BigInt) : Ordering :=
  let scmp := Sign.cmp a.sign b.sign
  if scmp ≠ Ordering.eq then scmp
  else
    match a.sign with
    | .NoSign => .eq
    | .Plus => compare a.data b.data
    | .Minus => compare b.data a.data

/-- Addition (`bigint_add!`): dispatch on the sign pair; same signs add
magnitudes, opposite signs subtract the smaller magnitude from the larger
and keep the larger operand's sign. -/
def add (a b : BigInt) : BigInt :=
  match a.sign, b.sign with
  | _, .NoSign => a
  | .NoSign, _ => b
  | .Plus, .Plus => from_biguint a.sign (a.data + b.data)
  | .Minus, .Minus => from_biguint a.sign (a.data + b.data)
  | .Plus, .Minus | .Minus, .Plus =>
    match compare a.data b.data with
    | .lt => from_biguint b.sign (b.data - a.data)
    | .gt => from_biguint a.sign (a.data - b.data)
    | .eq => zero

/-- Subtraction (`bigint_sub!`): opposite signs add magnitudes keeping the
left sign; same signs subtract magnitudes, toggling the left sign when the
right magnitude is larger. -/
def sub (a b : BigInt) : BigInt :=
  match a.sign, b.sign with
  | _, .NoSign => a
  | .NoSign, _ => b.neg
  | .Plus, .Minus | .Minus, .Plus => from_biguint a.sign (a.data + b.data)
  | .Plus, .Plus | .Minus, .Minus =>
    match compare a.data b.data with
    | .lt => from_biguint a.sign.neg (b.data - a.data)
    | .gt => from_biguint a.sign (a.data - b.data)
    | .eq => zero

/-- Multiplication (`impl Mul for BigInt`): product of signs with product
of magnitudes. -/
def mul (a b : BigInt) : BigInt :=
  from_biguint (a.sign.mul b.sign) (a.data * b.data)

/-- Scalar subtraction of a small unsigned value (`impl Sub<u32> for
BigInt`), used by `div_floor` as `-d - 1u32`. -/
def sub_u32 (x : BigInt) (o : ℕ) : BigInt :=
  match x.sign with
  | .NoSign => (ofNat o).neg
  | .Minus => (ofNat (x.data + o)).neg
  | .Plus =>
    match compare x.data o with
    | .eq => zero
    | .gt => ofNat (x.data - o)
    | .lt => (ofNat (o - x.data)).neg

/-- Bitwise NOT (`impl Not for BigInt`, owned): a non-negative operand
becomes negative with magnitude incremented, a negative operand has its
magnitude decremented and becomes `Plus`, or `NoSign` when the magnitude
vanished. -/
def not (x : BigInt) : BigInt :=
  match x.sign with
  | .NoSign | .Plus => ⟨Sign.Minus, x.data + 1⟩
  | .Minus =>
    let d := x.data - 1
    ⟨if d = 0 then Sign.NoSign else Sign.Plus, d⟩

/-- Truncating division with remainder (`Integer::div_rem for BigInt`):
the magnitude engine's truncating divide-with-remainder is exact natural
division; the remainder keeps the dividend's sign and the quotient is
negated when the divisor is negative. -/
def div_rem (a b : BigInt) : BigInt × BigInt :=
  let d := from_biguint a.sign (a.data / b.data)
  let r := from_biguint a.sign (a.data % b.data)
  if b.sign = Sign.Minus then (d.neg, r) else (d, r)

/-- Floor division (`Integer::div_floor for BigInt`): on mismatched signs
the magnitude quotient is negated and decremented by one when the
magnitude remainder is nonzero.  The divisor-is-zero arm is
`unreachable!()` in the source and is mapped to canonical zero here; every
theorem about this function assumes a nonzero divisor. -/
def div_floor (a b : BigInt) : BigInt :=
  let d_ui := a.data / b.data
  let m := a.data % b.data
  let d := ofNat d_ui
  match a.sign, b.sign with
  | .Plus, .Plus | .NoSign, .Plus | .Minus, .Minus => d
  | .Plus, .Minus | .NoSign, .Minus | .Minus, .Plus =>
    if m = 0 then d.neg else d.neg.sub_u32 1
  | _, .NoSign => zero

/-- Floor modulo (`Integer::mod_floor for BigInt`): the magnitude
remainder carries the divisor's sign; on mismatched signs a nonzero
remainder is replaced by `other - m`.  The divisor-is-zero arm is
`unreachable!()` in the source and is mapped to canonical zero here. -/
def mod_floor (a b : BigInt) : BigInt :=
  let m := from_biguint b.sign (a.data % b.data)
  match a.sign, b.sign with
  | .Plus, .Plus | .NoSign, .Plus | .Minus, .Minus => m
  | .Plus, .Minus | .NoSign, .Minus | .Minus, .Plus =>
    if m.sign = Sign.NoSign then m else b.sub m
  | _, .NoSign => zero

/-- Oddness of the stored magnitude (`Integer::is_odd`, delegated to the
magnitude engine). -/
def is_odd (x : BigInt) : Bool := x.data % 2 = 1

/-- Modular exponentiation (`BigInt::modpow`): the magnitude engine
computes `|base| ^ |exponent| mod |modulus|` (modelled from the spec as
exact natural arithmetic); a zero magnitude result yields canonical zero,
otherwise the result is re-signed following the modulus with the magnitude
flipped to `|modulus| - result` on mismatch. -/
def modpow (b e m : BigInt) : BigInt :=
  let result := b.data ^ e.data % m.data
  if result = 0 then zero
  else
    match decide (b.sign = Sign.Minus) && e.is_odd, decide (m.sign = Sign.Minus) with
    | false, false => from_biguint Sign.Plus result
    | true, false => from_biguint Sign.Plus (m.data - result)
    | false, true => from_biguint Sign.Minus (m.data - result)
    | true, true => from_biguint Sign.Minus result

/-- Modelled from the spec: the magnitude engine's trailing-zero count
for a nonzero unsigned value (number of low-order zero bits). -/
def tz (n : ℕ) : ℕ :=
  if h : n = 0 then 0
  else if n % 2 = 1 then 0
  else tz (n / 2) + 1
decreasing_by exact Nat.div_lt_self (Nat.pos_of_ne_zero h) (by norm_num)

/-- Rounding test for right shift (`shr_round_down`): a negative operand
needs the quotient incremented exactly when the shift is positive and the
trailing-zero count of the magnitude is smaller than the shift. -/
def shr_round_down (i : BigInt) (shift : ℕ) : Bool :=
  if i.sign = Sign.Minus then decide (0 < shift ∧ tz i.data < shift)
  else false

/-- Right shift (`impl Shr for BigInt` via `impl_shift!`): shift the
magnitude right (divide by `2^n`), add one when `shr_round_down` fires,
and rebuild with the original sign. -/
def shr (a : BigInt) (n : ℕ) : BigInt :=
  let rd := shr_round_down a n
  let d := a.data / 2 ^ n
  from_biguint a.sign (if rd then d + 1 else d)

/-- Left shift (`impl Shl for BigInt`): multiply the magnitude by `2^n`,
keep the sign. -/
def shl (a : BigInt) (n : ℕ) : BigInt :=
  from_biguint a.sign (a.data * 2 ^ n)

/-- Modelled from the spec: the magnitude engine's narrowing conversion to
`u64`, failing when the value needs more than 64 bits. -/
def natToU64 (n : ℕ) : Option ℕ :=
  if n < 2 ^ 64 then some n else none

/-- Modelled from the spec: the magnitude engine's narrowing conversion to
`i64`, failing when the unsigned value exceeds `i64::MAX`. -/
def natToI64 (n : ℕ) : Option ℤ :=
  if n < 2 ^ 63 then some (n : ℤ) else none

/-- Narrowing conversion to `i64` (`ToPrimitive::to_i64 for BigInt`):
a negative value converts through `u64`, mapping exactly `2^63` to
`i64::MIN` and anything larger to `None`. -/
def to_i64 (x : BigInt) : Option ℤ :=
  match x.sign with
  | .Plus => natToI64 x.data
  | .NoSign => some 0
  | .Minus =>
    match natToU64 x.data with
    | none => none
    | some n =>
      match compare n (2 ^ 63) with
      | .lt => some (-(n : ℤ))
      | .eq => some (-(2 ^ 63))
      | .gt => none

/-- Narrowing conversion to `u64` (`ToPrimitive::to_u64 for BigInt`):
negative values always fail. -/
def to_u64 (x : BigInt) : Option ℕ :=
  match x.sign with
  | .Plus => natToU64 x.data
  | .NoSign => some 0
  | .Minus => none

/-- Conversion to the unsigned magnitude type (`BigInt::to_biguint`):
fails exactly on negative values. -/
def to_biguint (x : BigInt) : Option ℕ :=
  match x.sign with
  | .Plus => some x.data
  | .NoSign => some 0
  | .Minus => none

end BigInt

namespace BigInt

lemma canon_from_biguint (s : Sign) (m : ℕ) : Canon (from_biguint s m) := by
  rcases s <;> simp [from_biguint, Canon] <;> split <;> simp_all

lemma canon_zero : Canon zero := by simp [zero, Canon]

lemma toInt_zero : zero.toInt = 0 := rfl

lemma toInt_from_biguint_plus (m : ℕ) : (from_biguint Sign.Plus m).toInt = m := by
  simp only [from_biguint]
  split
  · simp_all
  · split <;> simp_all [toInt]

lemma toInt_from_biguint_minus (m : ℕ) : (from_biguint Sign.Minus m).toInt = -(m : ℤ) := by
  simp only [from_biguint]
  split
  · simp_all
  · split <;> simp_all [toInt]

lemma toInt_from_biguint_nosign (m : ℕ) : (from_biguint Sign.NoSign m).toInt = 0 := by
  simp [from_biguint, toInt]

lemma toInt_neg (x : BigInt) : x.neg.toInt = -x.toInt := by
  rcases x with ⟨s, d⟩; rcases s <;> simp [neg, Sign.neg, toInt]

lemma canon_neg {x : BigInt} (hx : Canon x) : Canon x.neg := by
  rcases x with ⟨s, d⟩; rcases s <;> simp_all [neg, Sign.neg, Canon]

lemma toInt_inj {x y : BigInt} (hx : Canon x) (hy : Canon y)
    (h : x.toInt = y.toInt) : x = y := by
  rcases x with ⟨sx, dx⟩; rcases y with ⟨sy, dy⟩
  rcases sx <;> rcases sy <;> simp_all [toInt, Canon] <;> omega

lemma canon_ofNat (n : ℕ) : Canon (ofNat n) := by
  unfold ofNat; split <;> simp_all [Canon, zero]

lemma toInt_ofNat (n : ℕ) : (ofNat n).toInt = n := by
  unfold ofNat; split <;> simp_all [toInt, zero]

lemma toInt_nonneg_of_not_minus {x : BigInt} (h : x.sign ≠ Sign.Minus) :
    0 ≤ x.toInt := by
  rcases x with ⟨s, d⟩; rcases s <;> simp_all [toInt]

lemma toInt_neg_of_minus {x : BigInt} (hx : Canon x) (h : x.sign = Sign.Minus) :
    x.toInt < 0 := by
  rcases x with ⟨s, d⟩
  rcases s <;> simp_all [toInt, Canon]
  omega

lemma canon_add {a b : BigInt} (ha : Canon a) (hb : Canon b) :
    Canon (a.add b) := by
  rcases a with ⟨sa, da⟩; rcases b with ⟨sb, db⟩
  rcases sa <;> rcases sb <;>
    simp_all only [add] <;>
    first
      | assumption
      | exact canon_from_biguint _ _
      | exact canon_zero
      | (cases hc : compare da db <;>
          simp only [hc] <;>
          first
            | exact canon_from_biguint _ _
            | exact canon_zero)

lemma canon_sub {a b : BigInt} (ha : Canon a) (hb : Canon b) :
    Canon (a.sub b) := by
  rcases a with ⟨sa, da⟩; rcases b with ⟨sb, db⟩
  rcases sa <;> rcases sb <;>
    simp_all only [sub] <;>
    first
      | assumption
      | exact canon_neg ‹_›
      | exact canon_from_biguint _ _
      | exact canon_zero
      | (cases hc : compare da db <;>
          simp only [hc] <;>
          first
            | exact canon_from_biguint _ _
            | exact canon_zero)

lemma canon_mul (a b : BigInt) : Canon (a.mul b) :=
  canon_from_biguint _ _

lemma canon_not (x : BigInt) : Canon x.not := by
  rcases x with ⟨s, d⟩
  rcases s
  case Minus => simp only [not, Canon]; split <;> simp_all
  case NoSign => simp [not, Canon]
  case Plus => simp [not, Canon]

lemma canon_sub_u32 (x : BigInt) (o : ℕ) : Canon (x.sub_u32 o) := by
  rcases x with ⟨s, d⟩
  rcases s <;> simp only [sub_u32] <;>
    first
      | exact canon_neg (canon_ofNat _)
      | (cases hc : compare d o <;>
          simp only [hc] <;>
          first
            | exact canon_neg (canon_ofNat _)
            | exact canon_ofNat _
            | exact canon_zero)

lemma canon_shr (a : BigInt) (n : ℕ) : Canon (a.shr n) :=
  canon_from_biguint _ _

lemma canon_div_rem (a b : BigInt) :
    Canon (a.div_rem b).1 ∧ Canon (a.div_rem b).2 := by
  unfold div_rem
  split <;>
    exact ⟨by first | exact canon_neg (canon_from_biguint _ _) | exact canon_from_biguint _ _,
      canon_from_biguint _ _⟩

lemma canon_div_floor (a b : BigInt) : Canon (a.div_floor b) := by
  rcases a with ⟨sa, da⟩; rcases b with ⟨sb, db⟩
  rcases sa <;> rcases sb <;> simp only [div_floor] <;>
    first
      | exact canon_ofNat _
      | exact canon_zero
      | (split <;>
          first
            | exact canon_neg (canon_ofNat _)
            | exact canon_sub_u32 _ _)

lemma canon_mod_floor (a b : BigInt) (hb : Canon b) : Canon (a.mod_floor b) := by
  rcases a with ⟨sa, da⟩; rcases b with ⟨sb, db⟩
  rcases sa <;> rcases sb <;> simp only [mod_floor] <;>
    first
      | exact canon_from_biguint _ _
      | exact canon_zero
      | (split <;>
          first
            | exact canon_from_biguint _ _
            | exact canon_sub hb (canon_from_biguint _ _))

lemma toInt_val (x : BigInt) : x.toInt = x.sign.val * x.data := by
  rcases x with ⟨s, d⟩; rcases s <;> simp [toInt, Sign.val]

lemma toInt_from_biguint (s : Sign) (m : ℕ) :
    (from_biguint s m).toInt = s.val * m := by
  rcases s
  · rw [toInt_from_biguint_minus]; simp [Sign.val]
  · rw [toInt_from_biguint_nosign]; simp [Sign.val]
  · rw [toInt_from_biguint_plus]; simp [Sign.val]

lemma from_biguint_sign (s : Sign) (m : ℕ) :
    (from_biguint s m).sign =
      if s = Sign.NoSign ∨ m = 0 then Sign.NoSign else s := by
  unfold from_biguint
  split_ifs with h1 h2 <;> simp_all

lemma toInt_sub_u32 (x : BigInt) (o : ℕ) :
    (x.sub_u32 o).toInt = x.toInt - o := by
  rcases x with ⟨s, d⟩
  rcases s
  case NoSign =>
    simp only [sub_u32, toInt_neg, toInt_ofNat]
    simp [toInt]
  case Minus =>
    simp only [sub_u32, toInt_neg, toInt_ofNat]
    simp only [toInt]
    push_cast; ring
  case Plus =>
    simp only [sub_u32]
    cases hc : compare d o
    case lt =>
      have hlt := Nat.compare_eq_lt.mp hc
      simp only [toInt_neg, toInt_ofNat]
      simp only [toInt]
      omega
    case eq =>
      have heq := Nat.compare_eq_eq.mp hc
      simp only [zero, toInt]
      omega
    case gt =>
      have hgt := Nat.compare_eq_gt.mp hc
      simp only [toInt_ofNat]
      simp only [toInt]
      omega

lemma toInt_sub (a b : BigInt) : (a.sub b).toInt = a.toInt - b.toInt := by
  rcases a with ⟨sa, da⟩; rcases b with ⟨sb, db⟩
  rcases sa <;> rcases sb
  case Minus.Minus =>
    simp only [sub]
    cases hc : compare da db
    case lt =>
      have h := Nat.compare_eq_lt.mp hc
      simp only [toInt_from_biguint]
      simp only [toInt, Sign.neg, Sign.val]
      omega
    case eq =>
      have h := Nat.compare_eq_eq.mp hc
      simp only [zero, toInt]
      omega
    case gt =>
      have h := Nat.compare_eq_gt.mp hc
      simp only [toInt_from_biguint]
      simp only [toInt, Sign.neg, Sign.val]
      omega
  case Minus.NoSign =>
    simp only [sub, toInt]; ring
  case Minus.Plus =>
    simp only [sub, toInt_from_biguint]
    simp only [toInt, Sign.val]
    omega
  case NoSign.Minus =>
    simp only [sub, toInt_neg]
    simp only [toInt]
    omega
  case NoSign.NoSign =>
    simp only [sub, toInt]; ring
  case NoSign.Plus =>
    simp only [sub, toInt_neg]
    simp only [toInt]
    omega
  case Plus.Minus =>
    simp only [sub, toInt_from_biguint]
    simp only [toInt, Sign.val]
    omega
  case Plus.NoSign =>
    simp only [sub, toInt]; ring
  case Plus.Plus =>
    simp only [sub]
    cases hc : compare da db
    case lt =>
      have h := Nat.compare_eq_lt.mp hc
      simp only [toInt_from_biguint]
      simp only [toInt, Sign.neg, Sign.val]
      omega
    case eq =>
      have h := Nat.compare_eq_eq.mp hc
      simp only [zero, toInt]
      omega
    case gt =>
      have h := Nat.compare_eq_gt.mp hc
      simp only [toInt_from_biguint]
      simp only [toInt, Sign.neg, Sign.val]
      omega

lemma div_rem_fst (a b : BigInt) :
    (a.div_rem b).1 =
      if b.sign = Sign.Minus then (from_biguint a.sign (a.data / b.data)).neg
      else from_biguint a.sign (a.data / b.data) := by
  unfold div_rem; split <;> simp_all

lemma div_rem_snd (a b : BigInt) :
    (a.div_rem b).2 = from_biguint a.sign (a.data % b.data) := by
  unfold div_rem; split <;> rfl

lemma sign_ne_nosign_of_toInt_ne {b : BigInt} (hb0 : b.toInt ≠ 0) :
    b.sign ≠ Sign.NoSign := by
  intro h; apply hb0; rw [toInt_val, h]; simp [Sign.val]

lemma data_ne_zero_of_toInt_ne {b : BigInt} (hb0 : b.toInt ≠ 0) :
    b.data ≠ 0 := by
  intro h; apply hb0; rw [toInt_val, h]; simp

lemma canon_modpow (b e m : BigInt) : Canon (b.modpow e m) := by
  unfold modpow
  split <;> (dsimp only; split <;>
    first
      | exact canon_zero
      | exact canon_from_biguint _ _)

end BigInt

/-- C3: the canonical-zero invariant (`sign = NoSign` iff zero magnitude)
holds for every construction from a sign and magnitude — with both
canonicalization directions — and is preserved along every embedded
construction path and operation, so no negative zero can be produced. -/
theorem C3_canonical_zero :
    (∀ s m, BigInt.Canon (BigInt.from_biguint s m)) ∧
    (∀ m, (BigInt.from_biguint Sign.NoSign m).data = 0) ∧
    (∀ s, (BigInt.from_biguint s 0).sign = Sign.NoSign) ∧
    (∀ s m, ¬((BigInt.from_biguint s m).sign = Sign.Minus ∧
      (BigInt.from_biguint s m).data = 0)) ∧
    (∀ s ds, BigInt.Canon (BigInt.new_ s ds)) ∧
    (∀ s ds, BigInt.Canon (BigInt.from_slice s ds)) ∧
    (∀ ng mag, BigInt.Canon (BigInt.from_str_radix_model ng mag)) ∧
    (∀ a b : BigInt, a.Canon → b.Canon → (a.add b).Canon) ∧
    (∀ a b : BigInt, a.Canon → b.Canon → (a.sub b).Canon) ∧
    (∀ a b : BigInt, (a.mul b).Canon) ∧
    (∀ x : BigInt, x.Canon → x.neg.Canon) ∧
    (∀ x : BigInt, x.not.Canon) ∧
    (∀ a n, (BigInt.shr a n).Canon) ∧
    (∀ a b : BigInt, (a.div_rem b).1.Canon ∧ (a.div_rem b).2.Canon) ∧
    (∀ a b : BigInt, (a.div_floor b).Canon) ∧
    (∀ a b : BigInt, b.Canon → (a.mod_floor b).Canon) ∧
    (∀ b e m : BigInt, (b.modpow e m).Canon) :=
  ⟨BigInt.canon_from_biguint,
    fun m => by simp [BigInt.from_biguint],
    fun s => by rcases s <;> simp [BigInt.from_biguint],
    fun s m h => by
      have hc := BigInt.canon_from_biguint s m
      unfold BigInt.Canon at hc
      rcases h with ⟨h1, h2⟩
      have h3 := hc.mpr h2
      rw [h1] at h3
      exact Sign.noConfusion h3,
    fun s ds => BigInt.canon_from_biguint _ _,
    fun s ds => BigInt.canon_from_biguint _ _,
    fun ng mag => BigInt.canon_from_biguint _ _,
    fun _ _ => BigInt.canon_add,
    fun _ _ => BigInt.canon_sub,
    BigInt.canon_mul,
    fun _ => BigInt.canon_neg,
    BigInt.canon_not,
    BigInt.canon_shr,
    BigInt.canon_div_rem,
    BigInt.canon_div_floor,
    BigInt.canon_mod_floor,
    BigInt.canon_modpow⟩

/-- C3 witness: adding `2` and `-2` produces a canonical zero. -/
theorem C3_canonical_zero_witness :
    BigInt.Canon (BigInt.add ⟨Sign.Plus, 2⟩ ⟨Sign.Minus, 2⟩) :=
  C3_canonical_zero.2.2.2.2.2.2.2.1 ⟨Sign.Plus, 2⟩ ⟨Sign.Minus, 2⟩
    (by decide) (by decide)

/-- C7: for every canonical value `x`, `!x = -x - 1`: a non-negative `x`
yields a negative value of magnitude `x + 1`, and a negative `x` yields a
non-negative value of magnitude `|x| - 1`, canonicalized to zero when
`|x| = 1`. -/
theorem C7_not_identity (x : BigInt) (hx : x.Canon) :
    (x.not).toInt = -x.toInt - 1 ∧
    (0 ≤ x.toInt → (x.not).sign = Sign.Minus ∧ (x.not).data = x.data + 1) ∧
    (x.toInt < 0 → (x.not).sign ≠ Sign.Minus ∧ (x.not).data = x.data - 1 ∧
      (x.data = 1 → x.not = BigInt.zero)) := by
  rcases x with ⟨s, d⟩
  rcases s
  case Minus =>
    simp_all only [BigInt.Canon]
    by_cases hd : d = 1
    · subst hd; simp [BigInt.not, BigInt.toInt, BigInt.zero]
    · have h0 : d ≠ 0 := by simp_all
      have h1 : d - 1 ≠ 0 := by omega
      simp_all [BigInt.not, BigInt.toInt, BigInt.zero, h1]
      omega
  case NoSign =>
    simp_all [BigInt.not, BigInt.toInt, BigInt.Canon, BigInt.zero]
  case Plus =>
    simp_all [BigInt.not, BigInt.toInt, BigInt.Canon, BigInt.zero]
    omega

/-- C7 witness: at `x = -1` the NOT canonicalizes to zero and satisfies
the identity. -/
theorem C7_not_identity_witness :
    (BigInt.not ⟨Sign.Minus, 1⟩) = BigInt.zero ∧
    (BigInt.not ⟨Sign.Minus, 1⟩).toInt = -(BigInt.toInt ⟨Sign.Minus, 1⟩) - 1 :=
  ⟨((C7_not_identity ⟨Sign.Minus, 1⟩ (by decide)).2.2 (by decide)).2.2 rfl,
    (C7_not_identity ⟨Sign.Minus, 1⟩ (by decide)).1⟩

/-- C10: comparison of two canonical values agrees with the mathematical
integer order: `cmp a b` is `lt`/`eq`/`gt` exactly as the denoted integers
compare. -/
theorem C10_cmp_order (a b : BigInt) (ha : a.Canon) (hb : b.Canon) :
    (BigInt.cmp a b = Ordering.lt ↔ a.toInt < b.toInt) ∧
    (BigInt.cmp a b = Ordering.eq ↔ a.toInt = b.toInt) ∧
    (BigInt.cmp a b = Ordering.gt ↔ b.toInt < a.toInt) := by
  rcases a with ⟨sa, da⟩; rcases b with ⟨sb, db⟩
  rcases sa <;> rcases sb <;>
    simp_all [BigInt.cmp, Sign.cmp, BigInt.toInt, BigInt.Canon,
      Nat.compare_eq_lt, Nat.compare_eq_eq, Nat.compare_eq_gt] <;>
    omega

/-- C10 witness: `-3` compares greater than `-5`. -/
theorem C10_cmp_order_witness :
    BigInt.cmp ⟨Sign.Minus, 3⟩ ⟨Sign.Minus, 5⟩ = Ordering.gt :=
  ((C10_cmp_order ⟨Sign.Minus, 3⟩ ⟨Sign.Minus, 5⟩ (by decide) (by decide)).2.2).2
    (by decide)

/-- C5: for every canonical `a` and nonzero canonical `b`, truncating
division satisfies `(a/b)*b + a%b = a`, the remainder's sign is the
dividend's sign or zero, and the quotient is exactly the magnitude
quotient signed by `sign(a) * sign(b)` with no adjustment. -/
theorem C5_truncating_division (a b : BigInt) (ha : a.Canon) (hb : b.Canon)
    (hb0 : b.toInt ≠ 0) :
    (a.div_rem b).1.toInt * b.toInt + (a.div_rem b).2.toInt = a.toInt ∧
    ((a.div_rem b).2.sign = a.sign ∨ (a.div_rem b).2.toInt = 0) ∧
    (a.div_rem b).1 = BigInt.from_biguint (a.sign.mul b.sign) (a.data / b.data) := by
  have hdb : b.data ≠ 0 := BigInt.data_ne_zero_of_toInt_ne hb0
  have hsb : b.sign ≠ Sign.NoSign := BigInt.sign_ne_nosign_of_toInt_ne hb0
  have hint : (b.data : ℤ) * ((a.data / b.data : ℕ) : ℤ) +
      ((a.data % b.data : ℕ) : ℤ) = (a.data : ℤ) := by
    exact_mod_cast Nat.div_add_mod a.data b.data
  refine ⟨?_, ?_, ?_⟩
  · rw [BigInt.div_rem_fst, BigInt.div_rem_snd]
    cases hbs : b.sign
    case NoSign => exact absurd hbs hsb
    case Minus =>
      rw [if_pos rfl, BigInt.toInt_neg, BigInt.toInt_from_biguint,
        BigInt.toInt_from_biguint, BigInt.toInt_val b, BigInt.toInt_val a, hbs]
      have hv : Sign.Minus.val = -1 := rfl
      rw [hv]
      linear_combination a.sign.val * hint
    case Plus =>
      rw [if_neg (by simp), BigInt.toInt_from_biguint,
        BigInt.toInt_from_biguint, BigInt.toInt_val b, BigInt.toInt_val a, hbs]
      have hv : Sign.Plus.val = 1 := rfl
      rw [hv]
      linear_combination a.sign.val * hint
  · rw [BigInt.div_rem_snd]
    by_cases hr : a.data % b.data = 0
    · right
      rw [BigInt.toInt_from_biguint, hr]
      simp
    · left
      have hcond : ¬(a.sign = Sign.NoSign ∨ a.data % b.data = 0) := by
        push_neg
        refine ⟨fun hs => absurd ?_ hr, hr⟩
        rw [ha.mp hs]
        simp
      rw [BigInt.from_biguint_sign, if_neg hcond]
  · rw [BigInt.div_rem_fst]
    cases hbs : b.sign
    case NoSign => exact absurd hbs hsb
    case Minus =>
      rw [if_pos rfl]
      cases has : a.sign <;> by_cases hq : a.data / b.data = 0 <;>
        simp [BigInt.from_biguint, BigInt.neg, Sign.neg, Sign.mul, hq]
    case Plus =>
      rw [if_neg (by simp)]
      cases has : a.sign <;>
        simp [BigInt.from_biguint, Sign.mul]

/-- C5 witness: at `a = 7`, `b = -2` the truncating division gives
quotient `-3` and remainder `1`. -/
theorem C5_truncating_division_witness :
    (BigInt.div_rem ⟨Sign.Plus, 7⟩ ⟨Sign.Minus, 2⟩).1.toInt *
        BigInt.toInt ⟨Sign.Minus, 2⟩ +
      (BigInt.div_rem ⟨Sign.Plus, 7⟩ ⟨Sign.Minus, 2⟩).2.toInt =
      BigInt.toInt ⟨Sign.Plus, 7⟩ :=
  (C5_truncating_division ⟨Sign.Plus, 7⟩ ⟨Sign.Minus, 2⟩ (by decide) (by decide)
    (by decide)).1

namespace BigInt

lemma toInt_mk_minus (d : ℕ) : (⟨Sign.Minus, d⟩ : BigInt).toInt = -(d : ℤ) := rfl

lemma toInt_mk_plus (d : ℕ) : (⟨Sign.Plus, d⟩ : BigInt).toInt = (d : ℤ) := rfl

lemma toInt_mk_nosign (d : ℕ) : (⟨Sign.NoSign, d⟩ : BigInt).toInt = 0 := rfl

lemma val_minus : Sign.Minus.val = -1 := rfl

lemma val_plus : Sign.Plus.val = 1 := rfl

end BigInt

/-- C4: for every canonical `a` and nonzero canonical `b`, floor division
satisfies `div_floor(a,b) * b + mod_floor(a,b) = a`, the floor modulo's
sign is the divisor's sign or zero, and the floor quotient equals the
truncating quotient decremented by one exactly when the signs of dividend
and divisor differ and the magnitude remainder is nonzero. -/
theorem C4_floor_division (a b : BigInt) (ha : a.Canon) (hb : b.Canon)
    (hb0 : b.toInt ≠ 0) :
    (a.div_floor b).toInt * b.toInt + (a.mod_floor b).toInt = a.toInt ∧
    ((a.mod_floor b).sign = b.sign ∨ (a.mod_floor b).toInt = 0) ∧
    (a.div_floor b).toInt = (a.div_rem b).1.toInt -
      (if a.sign.mul b.sign = Sign.Minus ∧ a.data % b.data ≠ 0 then 1 else 0) := by
  have hdb : b.data ≠ 0 := BigInt.data_ne_zero_of_toInt_ne hb0
  have hsb : b.sign ≠ Sign.NoSign := BigInt.sign_ne_nosign_of_toInt_ne hb0
  rcases a with ⟨sa, da⟩; rcases b with ⟨sb, db⟩
  have hrlt : da % db < db := Nat.mod_lt _ (Nat.pos_of_ne_zero hdb)
  have hint : (db : ℤ) * ((da / db : ℕ) : ℤ) + ((da % db : ℕ) : ℤ) = (da : ℤ) := by
    exact_mod_cast Nat.div_add_mod da db
  rcases sa <;> rcases sb <;> try (exact absurd rfl hsb)
  case Minus.Minus =>
    refine ⟨?_, ?_, ?_⟩
    · simp only [BigInt.div_floor, BigInt.mod_floor]
      rw [BigInt.toInt_ofNat, BigInt.toInt_from_biguint, BigInt.val_minus,
        BigInt.toInt_mk_minus, BigInt.toInt_mk_minus]
      linear_combination -hint
    · by_cases hm : da % db = 0
      · right
        simp only [BigInt.mod_floor]
        rw [BigInt.toInt_from_biguint, hm]
        simp
      · left
        simp only [BigInt.mod_floor]
        rw [BigInt.from_biguint_sign, if_neg (by simp [hm])]
    · rw [BigInt.div_rem_fst, if_pos rfl]
      simp only [BigInt.div_floor]
      rw [BigInt.toInt_ofNat, BigInt.toInt_neg, BigInt.toInt_from_biguint,
        BigInt.val_minus, if_neg (by simp [Sign.mul])]
      ring
  case Minus.Plus =>
    have hgt : compare db (da % db) = Ordering.gt := Nat.compare_eq_gt.mpr hrlt
    by_cases hm : da % db = 0
    · have hdf : BigInt.div_floor ⟨Sign.Minus, da⟩ ⟨Sign.Plus, db⟩ =
          (BigInt.ofNat (da / db)).neg := by
        simp [BigInt.div_floor, hm]
      have hmf : BigInt.mod_floor ⟨Sign.Minus, da⟩ ⟨Sign.Plus, db⟩ =
          ⟨Sign.NoSign, 0⟩ := by
        simp [BigInt.mod_floor, hm, BigInt.from_biguint]
      refine ⟨?_, ?_, ?_⟩
      · rw [hdf, hmf, BigInt.toInt_neg, BigInt.toInt_ofNat, BigInt.toInt_mk_nosign,
          BigInt.toInt_mk_plus, BigInt.toInt_mk_minus]
        rw [hm] at hint
        linear_combination -hint
      · right; rw [hmf, BigInt.toInt_mk_nosign]
      · rw [BigInt.div_rem_fst, if_neg (by simp), hdf, if_neg (by simp [hm])]
        simp only [BigInt.toInt_neg, BigInt.toInt_ofNat, BigInt.toInt_from_biguint,
          BigInt.val_minus]
        ring
    · have hfb : BigInt.from_biguint Sign.Plus (da % db) = ⟨Sign.Plus, da % db⟩ := by
        simp [BigInt.from_biguint, hm]
      have hd0 : db - da % db ≠ 0 := by omega
      have hmf : BigInt.mod_floor ⟨Sign.Minus, da⟩ ⟨Sign.Plus, db⟩ =
          ⟨Sign.Plus, db - da % db⟩ := by
        simp only [BigInt.mod_floor, hfb]
        rw [if_neg (by simp)]
        simp only [BigInt.sub, hgt]
        simp [BigInt.from_biguint, hd0]
      have hdf : BigInt.div_floor ⟨Sign.Minus, da⟩ ⟨Sign.Plus, db⟩ =
          (BigInt.ofNat (da / db)).neg.sub_u32 1 := by
        simp [BigInt.div_floor, hm]
      refine ⟨?_, ?_, ?_⟩
      · rw [hmf, hdf]
        simp only [BigInt.toInt_sub_u32, BigInt.toInt_neg, BigInt.toInt_ofNat,
          BigInt.toInt_mk_plus, BigInt.toInt_mk_minus]
        rw [Nat.cast_sub (le_of_lt hrlt)]
        linear_combination -hint
      · left; rw [hmf]
      · rw [BigInt.div_rem_fst, if_neg (by simp), hdf, if_pos ⟨rfl, hm⟩]
        simp only [BigInt.toInt_sub_u32, BigInt.toInt_neg, BigInt.toInt_ofNat,
          BigInt.toInt_from_biguint, BigInt.val_minus]
        ring
  case NoSign.Minus =>
    have hda : da = 0 := ha.mp rfl
    subst hda
    refine ⟨?_, ?_, ?_⟩ <;>
      simp [BigInt.div_floor, BigInt.mod_floor, BigInt.div_rem_fst,
        BigInt.toInt_ofNat, BigInt.toInt_from_biguint, BigInt.from_biguint,
        BigInt.ofNat, BigInt.zero, BigInt.neg, Sign.neg, Sign.mul, Sign.val,
        BigInt.toInt]
  case NoSign.Plus =>
    have hda : da = 0 := ha.mp rfl
    subst hda
    refine ⟨?_, ?_, ?_⟩ <;>
      simp [BigInt.div_floor, BigInt.mod_floor, BigInt.div_rem_fst,
        BigInt.toInt_ofNat, BigInt.toInt_from_biguint, BigInt.from_biguint,
        BigInt.ofNat, BigInt.zero, BigInt.neg, Sign.neg, Sign.mul, Sign.val,
        BigInt.toInt]
  case Plus.Minus =>
    have hgt : compare db (da % db) = Ordering.gt := Nat.compare_eq_gt.mpr hrlt
    by_cases hm : da % db = 0
    · have hdf : BigInt.div_floor ⟨Sign.Plus, da⟩ ⟨Sign.Minus, db⟩ =
          (BigInt.ofNat (da / db)).neg := by
        simp [BigInt.div_floor, hm]
      have hmf : BigInt.mod_floor ⟨Sign.Plus, da⟩ ⟨Sign.Minus, db⟩ =
          ⟨Sign.NoSign, 0⟩ := by
        simp [BigInt.mod_floor, hm, BigInt.from_biguint]
      refine ⟨?_, ?_, ?_⟩
      · rw [hdf, hmf, BigInt.toInt_neg, BigInt.toInt_ofNat, BigInt.toInt_mk_nosign,
          BigInt.toInt_mk_minus, BigInt.toInt_mk_plus]
        rw [hm] at hint
        linear_combination hint
      · right; rw [hmf, BigInt.toInt_mk_nosign]
      · rw [BigInt.div_rem_fst, if_pos rfl, hdf, if_neg (by simp [hm])]
        simp only [BigInt.toInt_neg, BigInt.toInt_ofNat, BigInt.toInt_from_biguint,
          BigInt.val_plus]
        ring
    · have hfb : BigInt.from_biguint Sign.Minus (da % db) = ⟨Sign.Minus, da % db⟩ := by
        simp [BigInt.from_biguint, hm]
      have hd0 : db - da % db ≠ 0 := by omega
      have hmf : BigInt.mod_floor ⟨Sign.Plus, da⟩ ⟨Sign.Minus, db⟩ =
          ⟨Sign.Minus, db - da % db⟩ := by
        simp only [BigInt.mod_floor, hfb]
        rw [if_neg (by simp)]
        simp only [BigInt.sub, hgt]
        simp [BigInt.from_biguint, hd0]
      have hdf : BigInt.div_floor ⟨Sign.Plus, da⟩ ⟨Sign.Minus, db⟩ =
          (BigInt.ofNat (da / db)).neg.sub_u32 1 := by
        simp [BigInt.div_floor, hm]
      refine ⟨?_, ?_, ?_⟩
      · rw [hmf, hdf]
        simp only [BigInt.toInt_sub_u32, BigInt.toInt_neg, BigInt.toInt_ofNat,
          BigInt.toInt_mk_minus, BigInt.toInt_mk_plus]
        rw [Nat.cast_sub (le_of_lt hrlt)]
        linear_combination hint
      · left; rw [hmf]
      · rw [BigInt.div_rem_fst, if_pos rfl, hdf, if_pos ⟨rfl, hm⟩]
        simp only [BigInt.toInt_sub_u32, BigInt.toInt_neg, BigInt.toInt_ofNat,
          BigInt.toInt_from_biguint, BigInt.val_plus]
        ring
  case Plus.Plus =>
    refine ⟨?_, ?_, ?_⟩
    · simp only [BigInt.div_floor, BigInt.mod_floor]
      rw [BigInt.toInt_ofNat, BigInt.toInt_from_biguint, BigInt.val_plus,
        BigInt.toInt_mk_plus, BigInt.toInt_mk_plus]
      linear_combination hint
    · by_cases hm : da % db = 0
      · right
        simp only [BigInt.mod_floor]
        rw [BigInt.toInt_from_biguint, hm]
        simp
      · left
        simp only [BigInt.mod_floor]
        rw [BigInt.from_biguint_sign, if_neg (by simp [hm])]
    · rw [BigInt.div_rem_fst, if_neg (by simp)]
      simp only [BigInt.div_floor]
      rw [BigInt.toInt_ofNat, BigInt.toInt_from_biguint, BigInt.val_plus,
        if_neg (by simp [Sign.mul])]
      ring

/-- C4 witness: at `a = 7`, `b = -2`: `div_floor = -4`, `mod_floor = -1`,
and the identity holds. -/
theorem C4_floor_division_witness :
    (BigInt.div_floor ⟨Sign.Plus, 7⟩ ⟨Sign.Minus, 2⟩).toInt *
        BigInt.toInt ⟨Sign.Minus, 2⟩ +
      (BigInt.mod_floor ⟨Sign.Plus, 7⟩ ⟨Sign.Minus, 2⟩).toInt =
      BigInt.toInt ⟨Sign.Plus, 7⟩ :=
  (C4_floor_division ⟨Sign.Plus, 7⟩ ⟨Sign.Minus, 2⟩ (by decide) (by decide)
    (by decide)).1

namespace BigInt

lemma tz_spec : ∀ n : ℕ, n ≠ 0 → 2 ^ tz n ∣ n ∧ ¬ 2 ^ (tz n + 1) ∣ n := by
  intro n
  induction n using Nat.strong_induction_on with
  | _ n ih =>
    intro hn
    rw [tz]
    split
    · exact absurd ‹n = 0› hn
    · split
      case isTrue hodd =>
        constructor
        · simp
        · intro hdvd
          have h2 : 2 ∣ n := dvd_trans (by norm_num) hdvd
          omega
      case isFalse hodd =>
        have hev : n % 2 = 0 := by omega
        have hhalf : n = 2 * (n / 2) := by omega
        have hh0 : n / 2 ≠ 0 := by omega
        obtain ⟨h1, h2⟩ := ih (n / 2) (by omega) hh0
        constructor
        · obtain ⟨c, hc⟩ := h1
          refine ⟨c, ?_⟩
          calc n = 2 * (n / 2) := hhalf
          _ = 2 * (2 ^ tz (n / 2) * c) := congrArg (fun t => 2 * t) hc
          _ = 2 ^ (tz (n / 2) + 1) * c := by ring
        · intro hdvd
          apply h2
          obtain ⟨c, hc⟩ := hdvd
          refine ⟨c, ?_⟩
          have h2c : 2 * (n / 2) = 2 * (2 ^ (tz (n / 2) + 1) * c) := by
            calc 2 * (n / 2) = n := hhalf.symm
            _ = 2 ^ (tz (n / 2) + 1 + 1) * c := hc
            _ = 2 * (2 ^ (tz (n / 2) + 1) * c) := by ring
          omega

lemma tz_lt_iff {n k : ℕ} (hn : n ≠ 0) : tz n < k ↔ ¬ (2 ^ k ∣ n) := by
  obtain ⟨h1, h2⟩ := tz_spec n hn
  constructor
  · intro hlt hdvd
    exact h2 (dvd_trans (pow_dvd_pow 2 (by omega)) hdvd)
  · intro hnd
    by_contra hge
    exact hnd (dvd_trans (pow_dvd_pow 2 (by omega)) h1)

lemma from_biguint_minus_data (m : ℕ) :
    (from_biguint Sign.Minus m).data = m := by
  unfold from_biguint
  split_ifs with h1 h2 <;> simp_all

end BigInt

/-- C6: for every canonical `a` and every `n ≥ 0`, `a >> n` equals
`floor(a / 2^n)` (floor division, rounding toward negative infinity), and
for negative `a` the truncated magnitude quotient is incremented by one
exactly when one of the `n` discarded low bits is set. -/
theorem C6_shift_right_floor (a : BigInt) (ha : a.Canon) (n : ℕ) :
    (a.shr n).toInt = Int.fdiv a.toInt (2 ^ n) ∧
    (a.sign = Sign.Minus →
      (a.shr n).data = a.data / 2 ^ n +
        (if a.data % 2 ^ n ≠ 0 then 1 else 0)) := by
  rcases a with ⟨s, d⟩
  have hpow : (0 : ℤ) ≤ 2 ^ n := by positivity
  rcases s
  case NoSign =>
    have hd : d = 0 := ha.mp rfl
    subst hd
    constructor
    · simp [BigInt.shr, BigInt.shr_round_down, BigInt.from_biguint,
        BigInt.toInt, Int.zero_fdiv]
    · intro h; exact absurd h (by simp)
  case Plus =>
    constructor
    · have hrd : BigInt.shr_round_down ⟨Sign.Plus, d⟩ n = false := by
        simp [BigInt.shr_round_down]
      simp only [BigInt.shr, hrd, Bool.false_eq_true, if_false]
      rw [BigInt.toInt_from_biguint, BigInt.val_plus, BigInt.toInt_mk_plus,
        Int.fdiv_eq_ediv _ hpow]
      push_cast
      simp
    · intro h; exact absurd h (by simp)
  case Minus =>
    have hd : d ≠ 0 := fun h0 => by
      have := ha.mpr h0
      exact Sign.noConfusion this
    have hrd : BigInt.shr_round_down ⟨Sign.Minus, d⟩ n =
        decide (d % 2 ^ n ≠ 0) := by
      simp only [BigInt.shr_round_down, if_pos rfl, if_true]
      rcases Nat.eq_zero_or_pos n with hn0 | hn0
      · subst hn0; simp [Nat.mod_one]
      · have : (BigInt.tz d < n) ↔ ¬ (2 ^ n ∣ d) := BigInt.tz_lt_iff hd
        rw [Nat.dvd_iff_mod_eq_zero] at this
        rw [decide_eq_decide]
        constructor
        · rintro ⟨-, h2⟩; exact this.mp h2
        · intro h2; exact ⟨hn0, this.mpr h2⟩
    by_cases hm : d % 2 ^ n = 0
    · have hrd' : BigInt.shr_round_down ⟨Sign.Minus, d⟩ n = false := by
        rw [hrd]; simp [hm]
      have hdvd : 2 ^ n ∣ d := Nat.dvd_of_mod_eq_zero hm
      obtain ⟨q, hq⟩ := hdvd
      have hq' : d / 2 ^ n = q := by
        rw [hq]; exact Nat.mul_div_cancel_left q (Nat.pos_pow_of_pos n (by norm_num))
      constructor
      · simp only [BigInt.shr, hrd', Bool.false_eq_true, if_false]
        rw [BigInt.toInt_from_biguint, BigInt.val_minus, BigInt.toInt_mk_minus, hq']
        have : -(d : ℤ) = 2 ^ n * (-(q : ℤ)) := by
          rw [hq]; push_cast; ring
        rw [this, Int.mul_fdiv_cancel_left _ (by positivity)]
        ring
      · intro _
        simp only [BigInt.shr, hrd', Bool.false_eq_true, if_false]
        rw [BigInt.from_biguint_minus_data]
        simp [hm]
    · have hrd' : BigInt.shr_round_down ⟨Sign.Minus, d⟩ n = true := by
        rw [hrd]; simp [hm]
      have hmod := Nat.div_add_mod d (2 ^ n)
      have hmlt : d % 2 ^ n < 2 ^ n :=
        Nat.mod_lt _ (Nat.pos_pow_of_pos n (by norm_num))
      constructor
      · simp only [BigInt.shr, hrd', if_true]
        rw [BigInt.toInt_from_biguint, BigInt.val_minus, BigInt.toInt_mk_minus,
          Int.fdiv_eq_ediv _ hpow]
        have huniq := (Int.ediv_emod_unique (b := (2 : ℤ) ^ n)
          (a := -(d : ℤ)) (q := -((d / 2 ^ n : ℕ) : ℤ) - 1)
          (r := (2 : ℤ) ^ n - ((d % 2 ^ n : ℕ) : ℤ)) (by positivity))
        have heq : ((2 : ℤ) ^ n - ((d % 2 ^ n : ℕ) : ℤ)) +
            2 ^ n * (-((d / 2 ^ n : ℕ) : ℤ) - 1) = -(d : ℤ) := by
          have : ((2 : ℤ) ^ n) * ((d / 2 ^ n : ℕ) : ℤ) + ((d % 2 ^ n : ℕ) : ℤ)
              = (d : ℤ) := by exact_mod_cast hmod
          linear_combination -this
        have hrange1 : (0 : ℤ) ≤ (2 : ℤ) ^ n - ((d % 2 ^ n : ℕ) : ℤ) := by
          have : ((d % 2 ^ n : ℕ) : ℤ) < (2 : ℤ) ^ n := by exact_mod_cast hmlt
          omega
        have hrange2 : (2 : ℤ) ^ n - ((d % 2 ^ n : ℕ) : ℤ) < (2 : ℤ) ^ n := by
          have : (0 : ℤ) < ((d % 2 ^ n : ℕ) : ℤ) := by
            exact_mod_cast Nat.pos_of_ne_zero hm
          omega
        obtain ⟨hq, -⟩ := huniq.mpr ⟨heq, hrange1, hrange2⟩
        rw [hq]
        push_cast
        ring
      · intro _
        simp only [BigInt.shr, hrd', if_true]
        rw [BigInt.from_biguint_minus_data]
        simp [hm]

/-- C6 witness: `(-7) >> 1 = -4`, `(-8) >> 1 = -4`, `7 >> 1 = 3`. -/
theorem C6_shift_right_floor_witness :
    (BigInt.shr ⟨Sign.Minus, 7⟩ 1).toInt = -4 ∧
    (BigInt.shr ⟨Sign.Minus, 8⟩ 1).toInt = -4 ∧
    (BigInt.shr ⟨Sign.Plus, 7⟩ 1).toInt = 3 :=
  ⟨((C6_shift_right_floor ⟨Sign.Minus, 7⟩ (by decide) 1).1).trans (by decide),
    ((C6_shift_right_floor ⟨Sign.Minus, 8⟩ (by decide) 1).1).trans (by decide),
    ((C6_shift_right_floor ⟨Sign.Plus, 7⟩ (by decide) 1).1).trans (by decide)⟩

/-- C9: every embedded narrowing export (`to_i64`, `to_u64`, `to_biguint`)
returns `none` exactly when the value lies outside the target range — in
particular any negative value fails to convert to an unsigned target —
and otherwise returns the exact value. -/
theorem C9_narrowing (x : BigInt) (hx : x.Canon) :
    (BigInt.to_i64 x = none ↔
      x.toInt < -(2 ^ 63) ∨ 2 ^ 63 - 1 < x.toInt) ∧
    (∀ v, BigInt.to_i64 x = some v → v = x.toInt) ∧
    (BigInt.to_u64 x = none ↔ x.toInt < 0 ∨ 2 ^ 64 - 1 < x.toInt) ∧
    (∀ v, BigInt.to_u64 x = some v → (v : ℤ) = x.toInt) ∧
    (BigInt.to_biguint x = none ↔ x.toInt < 0) ∧
    (∀ v, BigInt.to_biguint x = some v → (v : ℤ) = x.toInt) := by
  rcases x with ⟨s, d⟩
  rcases s
  case NoSign =>
    have hd : d = 0 := hx.mp rfl
    subst hd
    refine ⟨?_, ?_, ?_, ?_, ?_, ?_⟩ <;>
      simp [BigInt.to_i64, BigInt.to_u64, BigInt.to_biguint, BigInt.toInt]
  case Plus =>
    refine ⟨?_, ?_, ?_, ?_, ?_, ?_⟩
    · simp only [BigInt.to_i64, BigInt.natToI64, BigInt.toInt]
      split_ifs with h <;> simp <;> try omega
    · intro v hv
      simp only [BigInt.to_i64, BigInt.natToI64] at hv
      split_ifs at hv with h
      all_goals simp_all [BigInt.toInt]
    · simp only [BigInt.to_u64, BigInt.natToU64, BigInt.toInt]
      split_ifs with h <;> simp <;> try omega
    · intro v hv
      simp only [BigInt.to_u64, BigInt.natToU64] at hv
      split_ifs at hv with h
      all_goals simp_all [BigInt.toInt]
    · simp [BigInt.to_biguint, BigInt.toInt]
    · intro v hv
      simp only [BigInt.to_biguint, Option.some.injEq] at hv
      simp [BigInt.toInt, ← hv]
  case Minus =>
    have hd : d ≠ 0 := fun h => Sign.noConfusion (hx.mpr h)
    by_cases h64 : d < 2 ^ 64
    · have hu : BigInt.natToU64 d = some d := by
        unfold BigInt.natToU64; exact if_pos h64
      cases hc : compare d (2 ^ 63)
      · have hlt := Nat.compare_eq_lt.mp hc
        norm_num at hc
        refine ⟨?_, ?_, ?_, ?_, ?_, ?_⟩ <;>
          simp [BigInt.to_i64, BigInt.to_u64, BigInt.to_biguint, hu, hc,
            BigInt.toInt] <;>
          try omega
      · have heq := Nat.compare_eq_eq.mp hc
        norm_num at hc
        refine ⟨?_, ?_, ?_, ?_, ?_, ?_⟩ <;>
          simp [BigInt.to_i64, BigInt.to_u64, BigInt.to_biguint, hu, hc,
            BigInt.toInt] <;>
          try omega
      · have hgt := Nat.compare_eq_gt.mp hc
        norm_num at hc
        refine ⟨?_, ?_, ?_, ?_, ?_, ?_⟩ <;>
          simp [BigInt.to_i64, BigInt.to_u64, BigInt.to_biguint, hu, hc,
            BigInt.toInt] <;>
          try omega
    · have hu : BigInt.natToU64 d = none := by
        unfold BigInt.natToU64; exact if_neg h64
      refine ⟨?_, ?_, ?_, ?_, ?_, ?_⟩ <;>
        simp [BigInt.to_i64, BigInt.to_u64, BigInt.to_biguint, hu,
          BigInt.toInt] <;>
        try omega

/-- C9 witness: `-2^63` converts exactly to `i64::MIN`, while `-1` fails
to convert to `u64`. -/
theorem C9_narrowing_witness :
    (BigInt.to_u64 ⟨Sign.Minus, 1⟩ = none) ∧
    ∀ v, BigInt.to_i64 ⟨Sign.Minus, 2 ^ 63⟩ = some v →
      v = BigInt.toInt ⟨Sign.Minus, 2 ^ 63⟩ :=
  ⟨((C9_narrowing ⟨Sign.Minus, 1⟩ (by decide)).2.2.1).mpr (by decide),
    (C9_narrowing ⟨Sign.Minus, 2 ^ 63⟩ (by decide)).2.1⟩

/-- C8: for every canonical `x` and nonzero canonical `m`,
`modpow(x, 0, m)` equals `1 mod m` under the floor-mod convention — `1`
when `m > 1`, `m + 1` when `m < -1` — except that it is `0` when
`|m| = 1`; and `modpow(-3, 3, 5)` lies in `[0, 5)`. -/
theorem C8_modpow_zero_exponent (x m : BigInt) (hx : x.Canon) (hm : m.Canon)
    (hm0 : m.toInt ≠ 0) :
    (1 < m.toInt → (x.modpow BigInt.zero m).toInt = 1) ∧
    (m.toInt < -1 → (x.modpow BigInt.zero m).toInt = m.toInt + 1) ∧
    (m.data = 1 → (x.modpow BigInt.zero m).toInt = 0) ∧
    (0 ≤ (BigInt.modpow ⟨Sign.Minus, 3⟩ ⟨Sign.Plus, 3⟩ ⟨Sign.Plus, 5⟩).toInt ∧
      (BigInt.modpow ⟨Sign.Minus, 3⟩ ⟨Sign.Plus, 3⟩ ⟨Sign.Plus, 5⟩).toInt < 5) := by
  rcases m with ⟨sm, dm⟩
  refine ⟨?_, ?_, ?_, by decide⟩
  · intro h1
    have hsm : sm = Sign.Plus := by
      rcases sm <;> simp [BigInt.toInt] at h1 <;> first | rfl | omega
    subst hsm
    have hdm : 1 < dm := by
      have : (1 : ℤ) < (dm : ℤ) := h1
      exact_mod_cast this
    have hr : x.data ^ (BigInt.zero).data % dm = 1 := by
      simp [BigInt.zero, Nat.mod_eq_of_lt hdm]
    simp only [BigInt.modpow, hr]
    rw [if_neg (by omega)]
    simp [BigInt.is_odd, BigInt.zero, BigInt.from_biguint, BigInt.toInt]
  · intro h1
    have hsm : sm = Sign.Minus := by
      rcases sm <;> simp [BigInt.toInt] at h1 <;> first | rfl | omega
    subst hsm
    have hdm : 1 < dm := by
      have : (dm : ℤ) > 1 := by
        simp only [BigInt.toInt] at h1
        omega
      exact_mod_cast this
    have hr : x.data ^ (BigInt.zero).data % dm = 1 := by
      simp [BigInt.zero, Nat.mod_eq_of_lt hdm]
    simp only [BigInt.modpow, hr]
    rw [if_neg (by omega)]
    have hd1 : dm - 1 ≠ 0 := by omega
    simp only [BigInt.is_odd, BigInt.zero]
    norm_num
    simp [BigInt.from_biguint, hd1, BigInt.toInt]
    omega
  · intro h1
    have h1' : dm = 1 := h1
    have hr : x.data ^ (BigInt.zero).data % dm = 0 := by
      simp [BigInt.zero, h1']
    simp only [BigInt.modpow, hr]
    simp [BigInt.zero, BigInt.toInt]

/-- C8 witness: `modpow(7, 0, -5) = -4` and `modpow(7, 0, 1) = 0`. -/
theorem C8_modpow_zero_exponent_witness :
    (BigInt.modpow ⟨Sign.Plus, 7⟩ BigInt.zero ⟨Sign.Minus, 5⟩).toInt =
      BigInt.toInt ⟨Sign.Minus, 5⟩ + 1 ∧
    (BigInt.modpow ⟨Sign.Plus, 7⟩ BigInt.zero ⟨Sign.Plus, 1⟩).toInt = 0 :=
  ⟨(C8_modpow_zero_exponent ⟨Sign.Plus, 7⟩ ⟨Sign.Minus, 5⟩ (by decide)
      (by decide) (by decide)).2.1 (by decide),
    (C8_modpow_zero_exponent ⟨Sign.Plus, 7⟩ ⟨Sign.Plus, 1⟩ (by decide)
      (by decide) (by decide)).2.2.1 rfl⟩

/-- C1 counterexample: with base `2` (non-negative), exponent `1` and
modulus `-5`, the code yields `-3` (sign following the modulus), so the
result is NOT forced positive when the base is non-negative. -/
theorem C1_counterexample :
    (0 : ℤ) ≤ BigInt.toInt ⟨Sign.Plus, 2⟩ ∧
    BigInt.modpow ⟨Sign.Plus, 2⟩ ⟨Sign.Plus, 1⟩ ⟨Sign.Minus, 5⟩ =
      ⟨Sign.Minus, 3⟩ ∧
    BigInt.toInt
      (BigInt.modpow ⟨Sign.Plus, 2⟩ ⟨Sign.Plus, 1⟩ ⟨Sign.Minus, 5⟩) < 0 := by
  decide

/-- C1 amended: `modpow` computes the magnitude-engine modular power `r`
on absolute values and re-signs it by the floor-mod convention: the result
is congruent to `base ^ exponent` modulo the modulus, lies in `[0, m)` for
`m > 0` and in `(m, 0]` for `m < 0` — so its sign follows the modulus's
sign except that it is forced to zero when the magnitude result is zero —
and the magnitude is replaced by `|modulus| - r` exactly when
`(base negative and exponent odd)` differs from `(modulus negative)`. -/
theorem C1_modpow_floor_mod (b e m : BigInt) (hb : b.Canon) (he : e.Canon)
    (hm : m.Canon) (he0 : e.sign ≠ Sign.Minus) (hm0 : m.toInt ≠ 0) :
    (m.toInt ∣ (b.toInt ^ e.data - (b.modpow e m).toInt)) ∧
    (0 < m.toInt →
      0 ≤ (b.modpow e m).toInt ∧ (b.modpow e m).toInt < m.toInt) ∧
    (m.toInt < 0 →
      m.toInt < (b.modpow e m).toInt ∧ (b.modpow e m).toInt ≤ 0) ∧
    ((b.modpow e m).sign =
      if b.data ^ e.data % m.data = 0 then Sign.NoSign else m.sign) ∧
    (b.data ^ e.data % m.data ≠ 0 →
      (b.modpow e m).data =
        if (decide (b.sign = Sign.Minus) && e.is_odd) ≠
            decide (m.sign = Sign.Minus)
        then m.data - b.data ^ e.data % m.data
        else b.data ^ e.data % m.data) := by
  have hdm : m.data ≠ 0 := BigInt.data_ne_zero_of_toInt_ne hm0
  have hsm : m.sign ≠ Sign.NoSign := BigInt.sign_ne_nosign_of_toInt_ne hm0
  have hmod := Nat.div_add_mod (b.data ^ e.data) m.data
  have hrlt : b.data ^ e.data % m.data < m.data :=
    Nat.mod_lt _ (Nat.pos_of_ne_zero hdm)
  have hint : ((m.data : ℕ) : ℤ) * ((b.data ^ e.data / m.data : ℕ) : ℤ) +
      ((b.data ^ e.data % m.data : ℕ) : ℤ) = ((b.data ^ e.data : ℕ) : ℤ) := by
    exact_mod_cast hmod
  have hcast : ((m.data - b.data ^ e.data % m.data : ℕ) : ℤ) =
      (m.data : ℤ) - ((b.data ^ e.data % m.data : ℕ) : ℤ) :=
    Nat.cast_sub (le_of_lt hrlt)
  have hrltz : ((b.data ^ e.data % m.data : ℕ) : ℤ) < (m.data : ℤ) := by
    exact_mod_cast hrlt
  have hpow : b.toInt ^ e.data =
      (if b.sign = Sign.Minus ∧ e.data % 2 = 1 then (-1 : ℤ) else 1) *
        ((b.data ^ e.data : ℕ) : ℤ) := by
    rcases hbs : b.sign
    case Minus =>
      rw [BigInt.toInt_val, hbs, BigInt.val_minus]
      have hc : ((-1 : ℤ) * (b.data : ℤ)) ^ e.data =
          (-1 : ℤ) ^ e.data * (b.data : ℤ) ^ e.data := mul_pow _ _ _
      rcases Nat.even_or_odd e.data with hev | hod
      · rw [if_neg (by simp [Nat.even_iff.mp hev])]
        rw [hc, Even.neg_one_pow hev]
        push_cast
        ring
      · rw [if_pos ⟨rfl, Nat.odd_iff.mp hod⟩]
        rw [hc, Odd.neg_one_pow hod]
        push_cast
        ring
    case NoSign =>
      have hd0 : b.data = 0 := hb.mp hbs
      rw [BigInt.toInt_val, hbs, hd0, if_neg (by simp)]
      rcases Nat.eq_zero_or_pos e.data with h0 | h0
      · rw [h0]
        norm_num [Sign.val]
      · have he' : e.data ≠ 0 := by omega
        simp [Sign.val, zero_pow he']
    case Plus =>
      rw [BigInt.toInt_val, hbs, BigInt.val_plus, if_neg (by simp [hbs])]
      push_cast
      ring
  by_cases hr0 : b.data ^ e.data % m.data = 0
  · have hz : b.modpow e m = BigInt.zero := by
      simp only [BigInt.modpow, hr0]
      simp
    rw [hz]
    refine ⟨?_, fun h => by simp [BigInt.toInt_zero]; omega,
      fun h => by simp [BigInt.toInt_zero]; omega, ?_, fun h => absurd hr0 h⟩
    · rw [BigInt.toInt_zero, hpow]
      obtain ⟨q, hq⟩ := Nat.dvd_of_mod_eq_zero hr0
      rcases hms : m.sign
      · rw [BigInt.toInt_val, hms, BigInt.val_minus]
        refine ⟨(if b.sign = Sign.Minus ∧ e.data % 2 = 1 then (-1 : ℤ) else 1) *
          (-(q : ℤ)), ?_⟩
        rw [hq]
        push_cast
        ring
      · exact absurd hms hsm
      · rw [BigInt.toInt_val, hms, BigInt.val_plus]
        refine ⟨(if b.sign = Sign.Minus ∧ e.data % 2 = 1 then (-1 : ℤ) else 1) *
          (q : ℤ), ?_⟩
        rw [hq]
        push_cast
        ring
    · rw [if_pos hr0]
      rfl
  · have hrpos : (0 : ℤ) < ((b.data ^ e.data % m.data : ℕ) : ℤ) := by
      exact_mod_cast Nat.pos_of_ne_zero hr0
    have hmag : m.data - b.data ^ e.data % m.data ≠ 0 := by omega
    cases hb1 : (decide (b.sign = Sign.Minus) && e.is_odd) <;>
      cases hm1 : decide (m.sign = Sign.Minus)
    · -- false, false: positive base power, positive modulus
      have hb1' : ¬(b.sign = Sign.Minus ∧ e.data % 2 = 1) := by
        intro ⟨h1, h2⟩
        simp [BigInt.is_odd, h1, h2] at hb1
      have hm1' : m.sign = Sign.Plus := by
        have hne : m.sign ≠ Sign.Minus := by
          intro h
          simp [h] at hm1
        rcases hms : m.sign <;> simp_all
      have hv : b.modpow e m = ⟨Sign.Plus, b.data ^ e.data % m.data⟩ := by
        simp only [BigInt.modpow, hb1, hm1]
        rw [if_neg hr0]
        simp [BigInt.from_biguint, hr0]
      rw [hv, hpow, if_neg hb1', BigInt.toInt_val m, hm1', BigInt.val_plus]
      refine ⟨⟨((b.data ^ e.data / m.data : ℕ) : ℤ), ?_⟩, fun h => ?_,
        fun h => ?_, ?_, fun h => ?_⟩
      · simp only [BigInt.toInt_mk_plus]
        linear_combination -hint
      · simp only [BigInt.toInt_mk_plus]
        exact ⟨by positivity, by omega⟩
      · simp only [BigInt.toInt_mk_plus] at *
        omega
      · rw [if_neg hr0]
      · rw [if_neg (by simp [hb1, hm1])]
    · -- false, true: positive base power, negative modulus
      have hb1' : ¬(b.sign = Sign.Minus ∧ e.data % 2 = 1) := by
        intro ⟨h1, h2⟩
        simp [BigInt.is_odd, h1, h2] at hb1
      have hm1' : m.sign = Sign.Minus := by simpa using hm1
      have hv : b.modpow e m =
          ⟨Sign.Minus, m.data - b.data ^ e.data % m.data⟩ := by
        simp only [BigInt.modpow, hb1, hm1]
        rw [if_neg hr0]
        simp [BigInt.from_biguint, hmag]
      rw [hv, hpow, if_neg hb1', BigInt.toInt_val m, hm1', BigInt.val_minus]
      refine ⟨⟨-((b.data ^ e.data / m.data : ℕ) : ℤ) - 1, ?_⟩, fun h => ?_,
        fun h => ?_, ?_, fun h => ?_⟩
      · simp only [BigInt.toInt_mk_minus]
        rw [hcast]
        linear_combination -hint
      · simp only [BigInt.toInt_mk_minus]
        omega
      · simp only [BigInt.toInt_mk_minus]
        rw [hcast]
        omega
      · rw [if_neg hr0]
      · rw [if_pos (by simp [hb1, hm1])]
    · -- true, false: negative base power, positive modulus
      have hb1' : b.sign = Sign.Minus ∧ e.data % 2 = 1 := by
        have hh := hb1
        simp only [Bool.and_eq_true, decide_eq_true_eq, BigInt.is_odd] at hh
        exact ⟨hh.1, by simpa using hh.2⟩
      have hm1' : m.sign = Sign.Plus := by
        have hne : m.sign ≠ Sign.Minus := by
          intro h
          simp [h] at hm1
        rcases hms : m.sign <;> simp_all
      have hv : b.modpow e m =
          ⟨Sign.Plus, m.data - b.data ^ e.data % m.data⟩ := by
        simp only [BigInt.modpow, hb1, hm1]
        rw [if_neg hr0]
        simp [BigInt.from_biguint, hmag]
      rw [hv, hpow, if_pos hb1', BigInt.toInt_val m, hm1', BigInt.val_plus]
      refine ⟨⟨-((b.data ^ e.data / m.data : ℕ) : ℤ) - 1, ?_⟩, fun h => ?_,
        fun h => ?_, ?_, fun h => ?_⟩
      · simp only [BigInt.toInt_mk_plus]
        rw [hcast]
        linear_combination hint
      · simp only [BigInt.toInt_mk_plus]
        rw [hcast]
        omega
      · simp only [BigInt.toInt_mk_plus] at *
        omega
      · rw [if_neg hr0]
      · rw [if_pos (by simp [hb1, hm1])]
    · -- true, true: negative base power, negative modulus
      have hb1' : b.sign = Sign.Minus ∧ e.data % 2 = 1 := by
        have hh := hb1
        simp only [Bool.and_eq_true, decide_eq_true_eq, BigInt.is_odd] at hh
        exact ⟨hh.1, by simpa using hh.2⟩
      have hm1' : m.sign = Sign.Minus := by simpa using hm1
      have hv : b.modpow e m = ⟨Sign.Minus, b.data ^ e.data % m.data⟩ := by
        simp only [BigInt.modpow, hb1, hm1]
        rw [if_neg hr0]
        simp [BigInt.from_biguint, hr0]
      rw [hv, hpow, if_pos hb1', BigInt.toInt_val m, hm1', BigInt.val_minus]
      refine ⟨⟨((b.data ^ e.data / m.data : ℕ) : ℤ), ?_⟩, fun h => ?_,
        fun h => ?_, ?_, fun h => ?_⟩
      · simp only [BigInt.toInt_mk_minus]
        linear_combination hint
      · simp only [BigInt.toInt_mk_minus]
        omega
      · simp only [BigInt.toInt_mk_minus]
        omega
      · rw [if_neg hr0]
      · rw [if_neg (by simp [hb1, hm1])]

/-- C1 amended witness: at `base = 2`, `exponent = 1`, `modulus = -5` the
result `-3` is congruent to `2` modulo `-5` and lies in `(-5, 0]`. -/
theorem C1_modpow_floor_mod_witness :
    BigInt.toInt ⟨Sign.Minus, 5⟩ <
      (BigInt.modpow ⟨Sign.Plus, 2⟩ ⟨Sign.Plus, 1⟩ ⟨Sign.Minus, 5⟩).toInt ∧
    (BigInt.modpow ⟨Sign.Plus, 2⟩ ⟨Sign.Plus, 1⟩ ⟨Sign.Minus, 5⟩).toInt ≤ 0 :=
  (C1_modpow_floor_mod ⟨Sign.Plus, 2⟩ ⟨Sign.Plus, 1⟩ ⟨Sign.Minus, 5⟩
    (by decide) (by decide) (by decide) (by decide) (by decide)).2.2.1
    (by decide)

namespace BigInt

/-- Modelled from the spec: the little-endian base-256 digits of an
unsigned value, with no trailing zero byte (empty for zero); reversing
gives the magnitude engine's minimal big-endian byte serialization. -/
def toBytesLE (n : ℕ) : List ℕ :=
  if h : n = 0 then []
  else n % 256 :: toBytesLE (n / 256)
decreasing_by exact Nat.div_lt_self (Nat.pos_of_ne_zero h) (by norm_num)

/-- Modelled from the spec: `BigUint::to_bytes_be` of the magnitude
engine — minimal big-endian bytes, with `[0]` for zero. -/
def to_bytes_be (n : ℕ) : List ℕ :=
  if n = 0 then [0] else (toBytesLE n).reverse

/-- Value of a little-endian byte list. -/
def fromBytesLE (l : List ℕ) : ℕ :=
  l.foldr (fun b acc => b + 256 * acc) 0

/-- Modelled from the spec: `BigUint::from_bytes_be` of the magnitude
engine — value of a big-endian byte list (leading zeros allowed). -/
def from_bytes_be (l : List ℕ) : ℕ := fromBytesLE l.reverse

/-- In-place two's complement of a byte sequence processed from the least
significant byte (`twos_complement` in bigint.rs): each byte is negated
(`!d`), and while the carry is live one is added with wrap-around, the
carry surviving exactly when the incremented byte wrapped to zero. -/
def twosComplementList : Bool → List ℕ → List ℕ
  | _, [] => []
  | carry, d :: ds =>
    let nd := 255 - d
    if carry then ((nd + 1) % 256) :: twosComplementList (decide ((nd + 1) % 256 = 0)) ds
    else nd :: twosComplementList false ds

/-- Two's complement of a big-endian byte buffer (`twos_complement_be`):
the iteration runs from the end, i.e. on the reversed list. -/
def twos_complement_be (l : List ℕ) : List ℕ :=
  (twosComplementList true l.reverse).reverse

/-- Two's-complement encoding (`BigInt::to_signed_bytes_be`): take the
magnitude's big-endian bytes; insert one zero byte when the top bit is in
use, except for a negative value whose magnitude is exactly `0x80` followed
by zeros; finally two's-complement the buffer when the value is negative. -/
def to_signed_bytes_be (x : BigInt) : List ℕ :=
  let bytes := to_bytes_be x.data
  let first_byte := bytes.headD 0
  let bytes :=
    if 0x7f < first_byte ∧
        ¬(first_byte = 0x80 ∧ bytes.tail.all (fun b => b == 0) = true ∧
          x.sign = Sign.Minus)
    then 0 :: bytes else bytes
  if x.sign = Sign.Minus then twos_complement_be bytes else bytes

/-- Two's-complement decoding (`BigInt::from_signed_bytes_be`): an empty
buffer is zero; a first byte above `0x7f` marks a negative value whose
magnitude is recovered by two's-complementing the buffer. -/
def from_signed_bytes_be (digits : List ℕ) : BigInt :=
  match digits.head? with
  | none => zero
  | some v =>
    if 0x7f < v then
      from_biguint Sign.Minus (from_bytes_be (twos_complement_be digits))
    else from_biguint Sign.Plus (from_bytes_be digits)

/-- Two's-complement reading of a big-endian byte buffer: the plain value,
minus `256 ^ length` when the sign bit (top bit of the first byte) is set.
This is the abstract meaning that `from_signed_bytes_be` must recover. -/
def sbValue (l : List ℕ) : ℤ :=
  if 127 < l.headD 0 then (from_bytes_be l : ℤ) - (256 : ℤ) ^ l.length
  else (from_bytes_be l : ℤ)

/-- Well-formed byte lists: every entry fits in one byte. -/
def BytesWF (l : List ℕ) : Prop := ∀ b ∈ l, b < 256

lemma fromBytesLE_nil : fromBytesLE [] = 0 := rfl

lemma fromBytesLE_cons (b : ℕ) (l : List ℕ) :
    fromBytesLE (b :: l) = b + 256 * fromBytesLE l := rfl

lemma fromBytesLE_append (xs ys : List ℕ) :
    fromBytesLE (xs ++ ys) = fromBytesLE xs + 256 ^ xs.length * fromBytesLE ys := by
  induction xs with
  | nil => simp [fromBytesLE_nil, fromBytesLE]
  | cons b xs ih =>
    simp only [List.cons_append, fromBytesLE_cons, ih, List.length_cons]
    ring

lemma fromBytesLE_lt {l : List ℕ} (h : BytesWF l) :
    fromBytesLE l < 256 ^ l.length := by
  induction l with
  | nil => simp [fromBytesLE_nil]
  | cons b l ih =>
    have hb : b < 256 := h b (List.mem_cons_self b l)
    have hl : BytesWF l := fun x hx => h x (List.mem_cons_of_mem b hx)
    have := ih hl
    simp only [fromBytesLE_cons, List.length_cons, pow_succ]
    calc b + 256 * fromBytesLE l < 256 + 256 * fromBytesLE l := by omega
    _ = 256 * (fromBytesLE l + 1) := by ring
    _ ≤ 256 * 256 ^ l.length := by
        apply Nat.mul_le_mul_left
        omega
    _ = 256 ^ l.length * 256 := by ring

lemma fromBytesLE_eq_zero_iff (l : List ℕ) :
    fromBytesLE l = 0 ↔ l.all (fun b => b == 0) = true := by
  induction l with
  | nil => simp [fromBytesLE_nil]
  | cons b l ih =>
    simp only [fromBytesLE_cons, List.all_cons, Bool.and_eq_true, beq_iff_eq]
    rw [← ih]
    omega


lemma from_bytes_be_cons (b : ℕ) (l : List ℕ) :
    from_bytes_be (b :: l) = b * 256 ^ l.length + from_bytes_be l := by
  simp only [from_bytes_be, List.reverse_cons, fromBytesLE_append]
  simp [fromBytesLE_cons, fromBytesLE_nil]
  ring

lemma from_bytes_be_lt {l : List ℕ} (h : BytesWF l) :
    from_bytes_be l < 256 ^ l.length := by
  have hwf : BytesWF l.reverse := fun b hb => h b (List.mem_reverse.mp hb)
  have := fromBytesLE_lt hwf
  simpa [from_bytes_be] using this

lemma toBytesLE_wf (n : ℕ) : BytesWF (toBytesLE n) := by
  induction n using Nat.strong_induction_on with
  | _ n ih =>
    rw [toBytesLE]
    split
    · intro b hb; simp at hb
    · intro b hb
      rcases List.mem_cons.mp hb with h1 | h2
      · subst h1; exact Nat.mod_lt _ (by norm_num)
      · exact ih (n / 256) (Nat.div_lt_self (Nat.pos_of_ne_zero ‹¬n = 0›) (by norm_num)) b h2

lemma fromBytesLE_toBytesLE (n : ℕ) : fromBytesLE (toBytesLE n) = n := by
  induction n using Nat.strong_induction_on with
  | _ n ih =>
    rw [toBytesLE]
    split
    · simp [fromBytesLE_nil, *]
    · rw [fromBytesLE_cons,
        ih (n / 256) (Nat.div_lt_self (Nat.pos_of_ne_zero ‹¬n = 0›) (by norm_num))]
      omega

lemma toBytesLE_bounds (n : ℕ) (hn : n ≠ 0) :
    toBytesLE n ≠ [] ∧
    256 ^ ((toBytesLE n).length - 1) ≤ n ∧ n < 256 ^ (toBytesLE n).length := by
  induction n using Nat.strong_induction_on with
  | _ n ih =>
    rw [toBytesLE]
    rw [dif_neg hn]
    refine ⟨by simp, ?_, ?_⟩
    · by_cases h2 : n / 256 = 0
      · rw [toBytesLE, dif_pos h2]
        simp
        omega
      · obtain ⟨-, hlo, -⟩ :=
          ih (n / 256) (Nat.div_lt_self (Nat.pos_of_ne_zero hn) (by norm_num)) h2
        have hne : toBytesLE (n / 256) ≠ [] := by
          rw [toBytesLE, dif_neg h2]; simp
        have hk : (toBytesLE (n / 256)).length ≠ 0 := by
          simpa [List.length_eq_zero] using hne
        simp only [List.length_cons]
        have : 256 ^ (toBytesLE (n / 256)).length ≤ n := by
          calc 256 ^ (toBytesLE (n / 256)).length
              = 256 ^ ((toBytesLE (n / 256)).length - 1) * 256 := by
                rw [← pow_succ]
                congr 1
                omega
          _ ≤ (n / 256) * 256 := by exact Nat.mul_le_mul_right _ hlo
          _ ≤ n := by omega
        simpa using this
    · by_cases h2 : n / 256 = 0
      · rw [toBytesLE, dif_pos h2]
        simp
        omega
      · obtain ⟨-, -, hhi⟩ :=
          ih (n / 256) (Nat.div_lt_self (Nat.pos_of_ne_zero hn) (by norm_num)) h2
        simp only [List.length_cons, pow_succ]
        calc n = 256 * (n / 256) + n % 256 := by omega
        _ < 256 * (n / 256) + 256 := by
            have := Nat.mod_lt n (show 0 < 256 by norm_num)
            omega
        _ = 256 * (n / 256 + 1) := by ring
        _ ≤ 256 * 256 ^ (toBytesLE (n / 256)).length := by
            apply Nat.mul_le_mul_left
            omega
        _ = 256 ^ (toBytesLE (n / 256)).length * 256 := by ring

end BigInt

namespace BigInt

lemma twosComplementList_length (c : Bool) (l : List ℕ) :
    (twosComplementList c l).length = l.length := by
  induction l generalizing c with
  | nil => rfl
  | cons d ds ih =>
    simp only [twosComplementList]
    split <;> simp [ih]

lemma twosComplementList_wf (c : Bool) (l : List ℕ) :
    BytesWF (twosComplementList c l) := by
  induction l generalizing c with
  | nil => intro b hb; simp [twosComplementList] at hb
  | cons d ds ih =>
    intro b hb
    simp only [twosComplementList] at hb
    split at hb
    · rcases List.mem_cons.mp hb with h | h
      · subst h; exact Nat.mod_lt _ (by norm_num)
      · exact ih _ b h
    · rcases List.mem_cons.mp hb with h | h
      · subst h; omega
      · exact ih _ b h

lemma tc_false_val {l : List ℕ} (h : BytesWF l) :
    fromBytesLE (twosComplementList false l) =
      256 ^ l.length - 1 - fromBytesLE l := by
  induction l with
  | nil => simp [twosComplementList, fromBytesLE_nil]
  | cons d ds ih =>
    have hd : d < 256 := h d (List.mem_cons_self d ds)
    have hds : BytesWF ds := fun x hx => h x (List.mem_cons_of_mem d hx)
    have hwlt : fromBytesLE ds < 256 ^ ds.length := fromBytesLE_lt hds
    simp only [twosComplementList]
    rw [if_neg (by simp)]
    rw [fromBytesLE_cons, ih hds, fromBytesLE_cons, List.length_cons, pow_succ]
    omega

lemma tc_true_val {l : List ℕ} (h : BytesWF l) :
    fromBytesLE (twosComplementList true l) =
      if fromBytesLE l = 0 then 0 else 256 ^ l.length - fromBytesLE l := by
  induction l with
  | nil => simp [twosComplementList, fromBytesLE_nil]
  | cons d ds ih =>
    have hd : d < 256 := h d (List.mem_cons_self d ds)
    have hds : BytesWF ds := fun x hx => h x (List.mem_cons_of_mem d hx)
    have hwlt : fromBytesLE ds < 256 ^ ds.length := fromBytesLE_lt hds
    simp only [twosComplementList]
    rw [if_pos trivial]
    by_cases hd0 : d = 0
    · subst hd0
      have h1 : (255 - 0 + 1) % 256 = 0 := by norm_num
      rw [h1]
      have h2 : decide ((0 : ℕ) = 0) = true := by simp
      rw [h2, fromBytesLE_cons, ih hds, fromBytesLE_cons, List.length_cons,
        pow_succ]
      by_cases hw : fromBytesLE ds = 0
      · simp [hw]
      · rw [if_neg hw, if_neg (by omega)]
        omega
    · have h1 : (255 - d + 1) % 256 = 256 - d := by omega
      rw [h1]
      have h2 : decide (256 - d = 0) = false := by
        simp only [decide_eq_false_iff_not]
        omega
      rw [h2, fromBytesLE_cons, tc_false_val hds, fromBytesLE_cons,
        List.length_cons, pow_succ, if_neg (by omega)]
      omega

lemma tc_be_length (l : List ℕ) : (twos_complement_be l).length = l.length := by
  simp [twos_complement_be, twosComplementList_length]

lemma tc_be_wf (l : List ℕ) : BytesWF (twos_complement_be l) :=
  fun b hb => twosComplementList_wf _ _ b (List.mem_reverse.mp hb)

lemma tc_be_val {l : List ℕ} (hwf : BytesWF l) :
    from_bytes_be (twos_complement_be l) =
      if from_bytes_be l = 0 then 0 else 256 ^ l.length - from_bytes_be l := by
  simp only [twos_complement_be, from_bytes_be, List.reverse_reverse]
  rw [tc_true_val (fun b hb => hwf b (List.mem_reverse.mp hb))]
  simp [List.length_reverse]

lemma from_bytes_be_zero_iff (l : List ℕ) :
    from_bytes_be l = 0 ↔ l.all (fun b => b == 0) = true := by
  rw [from_bytes_be, fromBytesLE_eq_zero_iff, List.all_reverse]

lemma headD_eq_div {l : List ℕ} (hl : l ≠ []) (hwf : BytesWF l) :
    l.headD 0 = from_bytes_be l / 256 ^ (l.length - 1) := by
  cases l with
  | nil => exact absurd rfl hl
  | cons b rest =>
    have hwr : BytesWF rest := fun x hx => hwf x (List.mem_cons_of_mem b hx)
    have hr := from_bytes_be_lt hwr
    have hX : 0 < 256 ^ rest.length := Nat.pos_pow_of_pos _ (by norm_num)
    simp only [List.headD_cons, from_bytes_be_cons, List.length_cons,
      Nat.add_sub_cancel]
    rw [mul_comm, Nat.mul_add_div hX, Nat.div_eq_of_lt hr, Nat.add_zero]

lemma head_gt_iff {l : List ℕ} (hl : l ≠ []) (hwf : BytesWF l) :
    127 < l.headD 0 ↔ 128 * 256 ^ (l.length - 1) ≤ from_bytes_be l := by
  rw [headD_eq_div hl hwf]
  have hX : 0 < 256 ^ (l.length - 1) := Nat.pos_pow_of_pos _ (by norm_num)
  constructor
  · intro h
    exact (Nat.le_div_iff_mul_le hX).mp (by omega)
  · intro h
    have := (Nat.le_div_iff_mul_le hX).mpr h
    omega

lemma sbValue_tc {l : List ℕ} (hwf : BytesWF l) (hne : l ≠ [])
    (hd0 : from_bytes_be l ≠ 0)
    (hge : 128 * 256 ^ (l.length - 1) ≤ 256 ^ l.length - from_bytes_be l) :
    sbValue (twos_complement_be l) = -(from_bytes_be l : ℤ) := by
  have hlt : from_bytes_be l < 256 ^ l.length := from_bytes_be_lt hwf
  have hlen := tc_be_length l
  have hwf' := tc_be_wf l
  have hval := tc_be_val hwf
  rw [if_neg hd0] at hval
  have hne' : twos_complement_be l ≠ [] := by
    intro h
    apply hne
    rw [h] at hlen
    exact List.length_eq_zero.mp hlen.symm
  have hhead : 127 < (twos_complement_be l).headD 0 := by
    rw [head_gt_iff hne' hwf', hlen, hval]
    exact hge
  simp only [sbValue]
  rw [if_pos hhead, hval, hlen, Nat.cast_sub (le_of_lt hlt)]
  push_cast
  ring

end BigInt

namespace BigInt

lemma from_signed_correct {l : List ℕ} (hwf : BytesWF l) :
    Canon (from_signed_bytes_be l) ∧
      (from_signed_bytes_be l).toInt = sbValue l := by
  cases l with
  | nil =>
    refine ⟨canon_zero, ?_⟩
    simp [from_signed_bytes_be, sbValue, toInt_zero, from_bytes_be,
      fromBytesLE_nil]
  | cons b rest =>
    have hwr : BytesWF rest := fun x hx => hwf x (List.mem_cons_of_mem b hx)
    by_cases hbig : 127 < b
    · have hv : from_signed_bytes_be (b :: rest) =
          from_biguint Sign.Minus
            (from_bytes_be (twos_complement_be (b :: rest))) := by
        simp [from_signed_bytes_be, hbig]
      have hX : 0 < 256 ^ rest.length := Nat.pos_pow_of_pos _ (by norm_num)
      have hge : 128 * 256 ^ rest.length ≤ from_bytes_be (b :: rest) := by
        have := (head_gt_iff (l := b :: rest) (by simp) hwf).mp (by simpa using hbig)
        simpa using this
      have hne : from_bytes_be (b :: rest) ≠ 0 := by omega
      have hlt : from_bytes_be (b :: rest) < 256 ^ (rest.length + 1) := by
        have := from_bytes_be_lt hwf
        simpa using this
      have hval := tc_be_val hwf
      rw [if_neg hne] at hval
      have hmagne :
          from_bytes_be (twos_complement_be (b :: rest)) ≠ 0 := by
        rw [hval]
        simp only [List.length_cons]
        omega
      rw [hv]
      refine ⟨canon_from_biguint _ _, ?_⟩
      rw [toInt_from_biguint, val_minus, hval]
      simp only [sbValue, List.headD_cons]
      rw [if_pos hbig]
      simp only [List.length_cons]
      rw [Nat.cast_sub (le_of_lt hlt)]
      push_cast
      ring
    · have hv : from_signed_bytes_be (b :: rest) =
          from_biguint Sign.Plus (from_bytes_be (b :: rest)) := by
        simp [from_signed_bytes_be, hbig]
      rw [hv]
      refine ⟨canon_from_biguint _ _, ?_⟩
      rw [toInt_from_biguint, val_plus]
      simp only [sbValue, List.headD_cons]
      rw [if_neg hbig]
      ring

end BigInt

namespace BigInt

lemma to_signed_correct {x : BigInt} (hx : Canon x) :
    BytesWF (to_signed_bytes_be x) ∧
      sbValue (to_signed_bytes_be x) = x.toInt := by
  rcases x with ⟨s, d⟩
  rcases s
  case NoSign =>
    have hd : d = 0 := hx.mp rfl
    subst hd
    have hout : to_signed_bytes_be ⟨Sign.NoSign, 0⟩ = [0] := by
      simp [to_signed_bytes_be, to_bytes_be]
    rw [hout]
    constructor
    · intro b hb
      simp at hb
      omega
    · simp [sbValue, from_bytes_be, fromBytesLE, toInt]
  case Plus =>
    have hd : d ≠ 0 := fun h => Sign.noConfusion (hx.mpr h)
    obtain ⟨hne0, hlo, hhi⟩ := toBytesLE_bounds d hd
    have hb_ne : (toBytesLE d).reverse ≠ [] := by
      intro h
      exact hne0 (by simpa using h)
    have hb_wf : BytesWF (toBytesLE d).reverse :=
      fun b hb => toBytesLE_wf d b (List.mem_reverse.mp hb)
    have hb_val : from_bytes_be (toBytesLE d).reverse = d := by
      rw [from_bytes_be, List.reverse_reverse, fromBytesLE_toBytesLE]
    have htb : to_bytes_be d = (toBytesLE d).reverse := by
      rw [to_bytes_be, if_neg hd]
    have hsneg : ¬(Sign.Plus = Sign.Minus) := by simp
    by_cases hbig : 127 < ((toBytesLE d).reverse).headD 0
    · have hCp : 127 < ((toBytesLE d).reverse).headD 0 ∧
          ¬(((toBytesLE d).reverse).headD 0 = 128 ∧
            (((toBytesLE d).reverse).tail.all fun b => b == 0) = true ∧
            Sign.Plus = Sign.Minus) :=
        ⟨hbig, fun hcon => Sign.noConfusion hcon.2.2⟩
      have hout : to_signed_bytes_be ⟨Sign.Plus, d⟩ =
          0 :: (toBytesLE d).reverse := by
        unfold to_signed_bytes_be
        dsimp only
        rw [htb, if_pos hCp, if_neg hsneg]
      rw [hout]
      constructor
      · intro b hb
        rcases List.mem_cons.mp hb with h | h
        · omega
        · exact hb_wf b h
      · simp only [sbValue, List.headD_cons]
        rw [if_neg (by norm_num), from_bytes_be_cons, hb_val]
        simp [toInt]
    · have hCp : ¬(127 < ((toBytesLE d).reverse).headD 0 ∧
          ¬(((toBytesLE d).reverse).headD 0 = 128 ∧
            (((toBytesLE d).reverse).tail.all fun b => b == 0) = true ∧
            Sign.Plus = Sign.Minus)) :=
        fun hcon => hbig hcon.1
      have hout : to_signed_bytes_be ⟨Sign.Plus, d⟩ = (toBytesLE d).reverse := by
        unfold to_signed_bytes_be
        dsimp only
        rw [htb, if_neg hCp, if_neg hsneg]
      rw [hout]
      refine ⟨hb_wf, ?_⟩
      simp only [sbValue]
      rw [if_neg hbig, hb_val]
      simp [toInt]
  case Minus =>
    have hd : d ≠ 0 := fun h => Sign.noConfusion (hx.mpr h)
    obtain ⟨hne0, hlo, hhi⟩ := toBytesLE_bounds d hd
    have hb_ne : (toBytesLE d).reverse ≠ [] := by
      intro h
      exact hne0 (by simpa using h)
    obtain ⟨b0, tail, hbl⟩ :
        ∃ b0 tail, (toBytesLE d).reverse = b0 :: tail := by
      cases h : (toBytesLE d).reverse with
      | nil => exact absurd h hb_ne
      | cons a b => exact ⟨a, b, rfl⟩
    have hb_wf : BytesWF (b0 :: tail) := by
      rw [← hbl]
      exact fun b hb => toBytesLE_wf d b (List.mem_reverse.mp hb)
    have hb0_lt : b0 < 256 := hb_wf b0 (List.mem_cons_self _ _)
    have htail_wf : BytesWF tail :=
      fun b hb => hb_wf b (List.mem_cons_of_mem b0 hb)
    have hw_lt : from_bytes_be tail < 256 ^ tail.length :=
      from_bytes_be_lt htail_wf
    have hb_val : from_bytes_be (b0 :: tail) = d := by
      rw [← hbl, from_bytes_be, List.reverse_reverse, fromBytesLE_toBytesLE]
    have hd_eq : d = b0 * 256 ^ tail.length + from_bytes_be tail := by
      rw [← hb_val, from_bytes_be_cons]
    have hklen : (toBytesLE d).length = tail.length + 1 := by
      have h2 : ((toBytesLE d).reverse).length = tail.length + 1 := by
        rw [hbl]; simp
      simpa using h2
    have hhi' : d < 256 ^ (tail.length + 1) := by
      rw [← hklen]; exact hhi
    have htb : to_bytes_be d = b0 :: tail := by
      rw [to_bytes_be, if_neg hd, hbl]
    by_cases hC : 127 < b0 ∧ ¬(b0 = 128 ∧ from_bytes_be tail = 0)
    · have hCtrue : 127 < (b0 :: tail).headD 0 ∧
          ¬((b0 :: tail).headD 0 = 128 ∧
            ((b0 :: tail).tail.all fun b => b == 0) = true ∧
            Sign.Minus = Sign.Minus) := by
        refine ⟨by simpa using hC.1, fun hcon => hC.2 ?_⟩
        exact ⟨by simpa using hcon.1,
          (from_bytes_be_zero_iff tail).mpr (by simpa using hcon.2.1)⟩
      have hout : to_signed_bytes_be ⟨Sign.Minus, d⟩ =
          twos_complement_be (0 :: b0 :: tail) := by
        unfold to_signed_bytes_be
        dsimp only
        rw [htb, if_pos hCtrue, if_pos rfl]
      have hval0 : from_bytes_be (0 :: b0 :: tail) = d := by
        rw [from_bytes_be_cons, hb_val]
        simp
      rw [hout]
      refine ⟨tc_be_wf _, ?_⟩
      rw [sbValue_tc ?_ (by simp) (by rw [hval0]; exact hd) ?_]
      · rw [hval0]
        simp [toInt]
      · intro b hb
        rcases List.mem_cons.mp hb with h | h
        · omega
        · exact hb_wf b h
      · rw [hval0]
        simp only [List.length_cons, Nat.add_sub_cancel]
        have h1 : (256 : ℕ) ^ (tail.length + 1 + 1) =
            256 * 256 ^ (tail.length + 1) := by ring
        rw [h1]
        omega
    · have hCfalse : ¬(127 < (b0 :: tail).headD 0 ∧
          ¬((b0 :: tail).headD 0 = 128 ∧
            ((b0 :: tail).tail.all fun b => b == 0) = true ∧
            Sign.Minus = Sign.Minus)) := by
        intro hcon
        apply hC
        refine ⟨by simpa using hcon.1, fun h2 => hcon.2 ?_⟩
        exact ⟨by simpa using h2.1,
          (from_bytes_be_zero_iff tail).mp h2.2, rfl⟩
      have hout : to_signed_bytes_be ⟨Sign.Minus, d⟩ =
          twos_complement_be (b0 :: tail) := by
        unfold to_signed_bytes_be
        dsimp only
        rw [htb, if_neg hCfalse, if_pos rfl]
      have hdle : d ≤ 128 * 256 ^ tail.length := by
        by_cases hb7 : 127 < b0
        · have h2 : b0 = 128 ∧ from_bytes_be tail = 0 := by
            by_contra hcon
            exact hC ⟨hb7, hcon⟩
          rw [h2.1, h2.2] at hd_eq
          omega
        · have h3 : b0 ≤ 127 := by omega
          have hb0X : b0 * 256 ^ tail.length ≤ 127 * 256 ^ tail.length :=
            Nat.mul_le_mul_right _ h3
          omega
      rw [hout]
      refine ⟨tc_be_wf _, ?_⟩
      rw [sbValue_tc hb_wf (by simp) (by rw [hb_val]; exact hd) ?_]
      · rw [hb_val]
        simp [toInt]
      · rw [hb_val]
        simp only [List.length_cons, Nat.add_sub_cancel]
        have h1 : (256 : ℕ) ^ (tail.length + 1) =
            256 * 256 ^ tail.length := by ring
        rw [h1]
        omega

end BigInt

/-- C2: decoding the big-endian two's-complement byte encoding of any
canonical value yields the value back:
`from_signed_bytes_be (to_signed_bytes_be x) = x`. -/
theorem C2_signed_bytes_roundtrip (x : BigInt) (hx : x.Canon) :
    BigInt.from_signed_bytes_be (BigInt.to_signed_bytes_be x) = x := by
  obtain ⟨hwf, hval⟩ := BigInt.to_signed_correct hx
  obtain ⟨hc, hv⟩ := BigInt.from_signed_correct hwf
  exact BigInt.toInt_inj hc hx (by rw [hv, hval])

/-- C2 witness: the round trip at `-1125` (whose encoding is
`[0xFB, 0x9B]`) and at `-128`, `128`, `-129`, and a multi-limb value. -/
theorem C2_signed_bytes_roundtrip_witness :
    BigInt.from_signed_bytes_be
        (BigInt.to_signed_bytes_be ⟨Sign.Minus, 1125⟩) = ⟨Sign.Minus, 1125⟩ ∧
    BigInt.from_signed_bytes_be
        (BigInt.to_signed_bytes_be ⟨Sign.Minus, 128⟩) = ⟨Sign.Minus, 128⟩ ∧
    BigInt.from_signed_bytes_be
        (BigInt.to_signed_bytes_be ⟨Sign.Plus, 128⟩) = ⟨Sign.Plus, 128⟩ ∧
    BigInt.from_signed_bytes_be
        (BigInt.to_signed_bytes_be ⟨Sign.Minus, 129⟩) = ⟨Sign.Minus, 129⟩ ∧
    BigInt.from_signed_bytes_be
        (BigInt.to_signed_bytes_be ⟨Sign.Minus, 2 ^ 70 + 12345⟩) =
      ⟨Sign.Minus, 2 ^ 70 + 12345⟩ :=
  ⟨C2_signed_bytes_roundtrip ⟨Sign.Minus, 1125⟩ (by decide),
    C2_signed_bytes_roundtrip ⟨Sign.Minus, 128⟩ (by decide),
    C2_signed_bytes_roundtrip ⟨Sign.Plus, 128⟩ (by decide),
    C2_signed_bytes_roundtrip ⟨Sign.Minus, 129⟩ (by decide),
    C2_signed_bytes_roundtrip ⟨Sign.Minus, 2 ^ 70 + 12345⟩ (by decide)⟩
